import Mathlib

/-!
# Verification of the concept relationship graph subsystem

Shallow embedding of `src/analysis/concept_mapper.py` (class `ConceptMapper`)
together with the behaviour of the networkx primitives it calls
(`nx.Graph`, `degree_centrality`, `clustering`, `average_clustering`,
`density`, `connected_components`, `shortest_path`, `betweenness_centrality`).

The graph mirrors `nx.Graph` as used by the mapper: an insertion-ordered
association list of nodes carrying `episodes`/`count` attributes, and an
insertion-ordered list of undirected edges carrying `weight`/`episodes`
attributes.  Iteration order of `nx.Graph` nodes/adjacency is insertion
order, which the list representation reproduces.
-/

set_option maxRecDepth 8000

namespace Simone

/-- One entry of an episode's `philosophical_content['concepts_explored']`
list that is a dict.  Missing string fields are represented by `""`,
matching `c.get(key, '')`. -/
structure ConceptEntry where
  concept : String
  definition_given : String
  practical_application : String
deriving DecidableEq

/-- An analysed episode, restricted to the fields the concept mapper reads
(`episode_id`, `title`, `philosophical_content['concepts_explored']`).
A `none` entry stands for a list element that is not a dict. -/
structure Episode where
  episode_id : String
  title : String
  concepts_explored : List (Option ConceptEntry)
deriving DecidableEq

/-- `[c.get('concept', '') for c in concepts if isinstance(c, dict) and c.get('concept')]`:
the concept names of an episode, skipping non-dict entries and entries whose
`concept` field is missing/empty (falsy). -/
def conceptNames (ep : Episode) : List String :=
  ep.concepts_explored.filterMap fun oe =>
    match oe with
    | none => none
    | some e => if e.concept = "" then none else some e.concept

/-- Node attributes: `episodes=[...]`, `count=...`. -/
structure NodeData where
  episodes : List String
  count : Nat
deriving DecidableEq

/-- Edge attributes: `weight=...`, `episodes=[...]`. -/
structure EdgeData where
  weight : Nat
  episodes : List String
deriving DecidableEq

/-- The mapper's `nx.Graph`: nodes and edges in insertion order.  An edge
`(u, v, d)` is undirected; it is stored once, under the endpoint order in
which it was first added. -/
structure Graph where
  nodes : List (String × NodeData)
  edges : List (String × String × EdgeData)
deriving DecidableEq

def Graph.emptyGraph : Graph := ⟨[], []⟩

def nodeNames (g : Graph) : List String := g.nodes.map Prod.fst

/-- `G.has_node(c)` -/
def hasNode (g : Graph) (c : String) : Bool := (nodeNames g).contains c

/-- Whether the stored edge with endpoints `x, y` is the undirected edge
`{a, b}`. -/
def sameEdge (a b x y : String) : Bool :=
  decide ((a = x ∧ b = y) ∨ (a = y ∧ b = x))

/-- `G.has_edge(a, b)` -/
def hasEdge (g : Graph) (a b : String) : Bool :=
  g.edges.any fun e => sameEdge a b e.1 e.2.1

/-- `G.nodes[c]['episodes'].append(epId); G.nodes[c]['count'] += 1`,
applied to the node with key `c`. -/
def bumpNode (c epId : String) (p : String × NodeData) : String × NodeData :=
  if p.1 = c then (p.1, ⟨p.2.episodes ++ [epId], p.2.count + 1⟩) else p

/-- Node-loop body of `_build_concept_graph`: ensure the node exists
(fresh nodes get `episodes=[], count=0`), then append the episode id and
increment the count. -/
def addNodeMention (g : Graph) (c epId : String) : Graph :=
  let g1 : Graph := if hasNode g c then g else ⟨g.nodes ++ [(c, ⟨[], 0⟩)], g.edges⟩
  ⟨g1.nodes.map (bumpNode c epId), g1.edges⟩

/-- The index pairs `(names[i], names[j])` for `i < j`, in loop order. -/
def allPairs : List String → List (String × String)
  | [] => []
  | x :: xs => xs.map (fun y => (x, y)) ++ allPairs xs

/-- `G[a][b]['weight'] += 1; G[a][b]['episodes'].append(epId)`, applied to
the stored edge `{a, b}`. -/
def bumpEdge (a b epId : String) (e : String × String × EdgeData) :
    String × String × EdgeData :=
  if sameEdge a b e.1 e.2.1 then
    (e.1, e.2.1, ⟨e.2.2.weight + 1, e.2.2.episodes ++ [epId]⟩)
  else e

/-- Edge-loop body of `_build_concept_graph`: if the undirected edge exists,
increment its weight and append the episode id; otherwise create it with
`weight=1, episodes=[epId]`. -/
def addEdgePair (g : Graph) (p : String × String) (epId : String) : Graph :=
  if hasEdge g p.1 p.2 then ⟨g.nodes, g.edges.map (bumpEdge p.1 p.2 epId)⟩
  else ⟨g.nodes, g.edges ++ [(p.1, p.2, ⟨1, [epId]⟩)]⟩

/-- One iteration of the episode loop of `_build_concept_graph`. -/
def processEpisode (g : Graph) (ep : Episode) : Graph :=
  let names := conceptNames ep
  let g1 := names.foldl (fun h c => addNodeMention h c ep.episode_id) g
  (allPairs names).foldl (fun h p => addEdgePair h p ep.episode_id) g1

/-- `_build_concept_graph`, applied to the (valid) episodes supplied by the
data manager. -/
def buildConceptGraph (eps : List Episode) : Graph :=
  eps.foldl processEpisode Graph.emptyGraph

/-- The `ConceptMapper` object: the data manager's episode list and the
graph built from it at construction time. -/
structure ConceptMapper where
  episodes : List Episode
  graph : Graph
deriving DecidableEq

def ConceptMapper.init (eps : List Episode) : ConceptMapper :=
  ⟨eps, buildConceptGraph eps⟩

/-! ## Accessors over the graph -/

/-- The stored node with key `c`. -/
def nodeEntry (g : Graph) (c : String) : Option (String × NodeData) :=
  g.nodes.find? fun p => p.1 = c

/-- The stored edge with endpoints `{a, b}`. -/
def edgeEntry (g : Graph) (a b : String) : Option (String × String × EdgeData) :=
  g.edges.find? fun e => sameEdge a b e.1 e.2.1

/-- `G.nodes[c]['count']`, reading `0` when the node is absent. -/
def countOf (g : Graph) (c : String) : Nat :=
  ((nodeEntry g c).map fun p => p.2.count).getD 0

/-- `G.nodes[c]['episodes']`, reading `[]` when the node is absent. -/
def episodeIdsOf (g : Graph) (c : String) : List String :=
  ((nodeEntry g c).map fun p => p.2.episodes).getD []

/-- `G[a][b]['weight']`, reading `0` when the edge is absent. -/
def weightOf (g : Graph) (a b : String) : Nat :=
  ((edgeEntry g a b).map fun e => e.2.2.weight).getD 0

/-- `G[a][b]['episodes']`, reading `[]` when the edge is absent. -/
def edgeEpisodesOf (g : Graph) (a b : String) : List String :=
  ((edgeEntry g a b).map fun e => e.2.2.episodes).getD []

/-- `list(G.neighbors(v))`: for each stored edge incident to `v`, the other
endpoint (a self-loop contributes `v` itself once), in adjacency insertion
order — which, for graphs built without edge deletion, is the order the
incident edges were first added. -/
def neighbors (g : Graph) (v : String) : List String :=
  g.edges.filterMap fun e =>
    if e.1 = v then some e.2.1
    else if e.2.1 = v then some e.1
    else none

/-! ## Graph metrics (networkx behaviour) -/

/-- `G.degree(v)`: the number of adjacency entries of `v`, a self-loop
counting twice. -/
def nxDegree (g : Graph) (v : String) : Nat :=
  (neighbors g v).length + (if hasEdge g v v then 1 else 0)

/-- `nx.degree_centrality(G).get(v, 0)`: networkx returns `{n: 1 for n in G}`
when the graph has at most one node, and otherwise `degree(v) / (n - 1)`;
absent keys read as the dict default `0`. -/
def degreeCentralityOf (g : Graph) (v : String) : ℚ :=
  if hasNode g v then
    if g.nodes.length ≤ 1 then 1
    else (nxDegree g v : ℚ) / ((g.nodes.length : ℚ) - 1)
  else 0

/-- `nx.clustering(G).get(v, 0)`: with `N` the set of neighbours of `v`
other than `v` itself (self-loops are ignored) and `k = |N|`, the
coefficient is `2 * |edges inside N| / (k * (k - 1))`, and `0` when there
are no such edges (in particular when `k < 2`). -/
def clusteringCoeff (g : Graph) (v : String) : ℚ :=
  if hasNode g v then
    let ns := ((neighbors g v).filter fun w => w ≠ v).dedup
    let k := ns.length
    if k < 2 then 0
    else ((2 * (allPairs ns).countP fun p => hasEdge g p.1 p.2 : Nat) : ℚ) /
           ((k : ℚ) * ((k : ℚ) - 1))
  else 0

/-- The Python error raised by `sum(c) / len(c)` on an empty dict of
clustering values. -/
def zeroDivisionMsg : String := "ZeroDivisionError: division by zero"

/-- `nx.average_clustering(G)`: the mean of all clustering coefficients;
on a graph with zero nodes the division `sum([]) / 0` raises
`ZeroDivisionError`. -/
def averageClustering (g : Graph) : Except String ℚ :=
  if g.nodes.length = 0 then .error zeroDivisionMsg
  else .ok (((nodeNames g).map fun c => clusteringCoeff g c).sum / (g.nodes.length : ℚ))

/-- `nx.density(G)`: `0` for a graph with at most one node or no edges,
otherwise `2m / (n(n-1))`. -/
def nxDensity (g : Graph) : ℚ :=
  let n := g.nodes.length
  let m := g.edges.length
  if m = 0 ∨ n ≤ 1 then 0
  else 2 * (m : ℚ) / ((n : ℚ) * ((n : ℚ) - 1))

/-- Vertices reachable from `s` by a walk of at most `n` edges (with
repetitions; used as the reachability semantics of BFS). -/
def ball (g : Graph) (s : String) : Nat → List String
  | 0 => [s]
  | n + 1 => ball g s n ++ (ball g s n).flatMap fun v => neighbors g v

/-- Least `k ≥ start` with `p k`, among the next `fuel` candidates. -/
def findFrom (p : Nat → Bool) : Nat → Nat → Option Nat
  | _, 0 => none
  | start, fuel + 1 => if p start then some start else findFrom p (start + 1) fuel

/-- The unweighted (BFS) distance from `s` to `t`: the least number of edges
of a connecting walk, `none` when the vertices are not connected. -/
def dist (g : Graph) (s t : String) : Option Nat :=
  findFrom (fun n => (ball g s n).contains t) 0 (g.nodes.length + 1)

/-- A concrete shortest walk from `s` to `t`, reconstructed backwards from
the reachability balls; `nx.shortest_path` returns such a walk. -/
def pathTo (g : Graph) (s : String) : Nat → String → List String
  | 0, t => [t]
  | n + 1, t =>
    if (ball g s n).contains t then pathTo g s n t
    else
      match (ball g s n).find? fun w => (neighbors g w).contains t with
      | some w => pathTo g s n w ++ [t]
      | none => []

/-- The connected component of `s`, as the deduplicated reachability list. -/
def reachList (g : Graph) (s : String) : List String :=
  (ball g s g.nodes.length).dedup

/-- `nx.connected_components(G)`: scan the nodes in order, emitting the
component of each not-yet-seen node. -/
def componentsAux (g : Graph) : List String → List String → List (List String)
  | [], _ => []
  | v :: rest, seen =>
    if seen.contains v then componentsAux g rest seen
    else reachList g v :: componentsAux g rest (seen ++ reachList g v)

def components (g : Graph) : List (List String) :=
  componentsAux g (nodeNames g) []

/-- `G.subgraph(comp)`: the induced subgraph, nodes and edges kept in their
original order. -/
def subgraphOn (g : Graph) (comp : List String) : Graph :=
  ⟨g.nodes.filter fun p => comp.contains p.1,
   g.edges.filter fun e => comp.contains e.1 && comp.contains e.2.1⟩

/-- One comparison step of Python's `max`: keep the current maximum unless
the new candidate is strictly greater. -/
def argmaxStep (acc : Option (String × ℚ)) (p : String × ℚ) : Option (String × ℚ) :=
  match acc with
  | none => some p
  | some q => if q.2 < p.2 then some p else some q

/-- `max(l, key=lambda x: x[1])`: the first pair with maximal second
component (Python's `max` keeps the current maximum on ties). -/
def argmaxFirst (l : List (String × ℚ)) : Option (String × ℚ) :=
  l.foldl argmaxStep none

/-- All simple paths from `u` to `t` avoiding `vis`, by exhaustive search
(the reference semantics for shortest-path counting). -/
def simplePaths (g : Graph) (t : String) : Nat → String → List String → List (List String)
  | 0, u, _ => if u = t then [[u]] else []
  | fuel + 1, u, vis =>
    if u = t then [[u]]
    else
      (((neighbors g u).dedup.filter fun w => ¬(u :: vis).contains w).map fun w =>
          (simplePaths g t fuel w (u :: vis)).map fun p => u :: p).flatten

/-- The shortest simple paths between `s` and `t`. -/
def shortestPathsBetween (g : Graph) (s t : String) : List (List String) :=
  let all := simplePaths g t g.nodes.length s []
  match (all.map List.length).min? with
  | none => []
  | some m => all.filter fun p => p.length = m

/-- The fraction of shortest `s`-`t` paths passing through `v` (`0` when
there is none). -/
def sigmaRatio (g : Graph) (s t v : String) : ℚ :=
  let ps := shortestPathsBetween g s t
  if ps.length = 0 then 0
  else ((ps.filter fun p => v ∈ p).length : ℚ) / (ps.length : ℚ)

/-- `nx.betweenness_centrality(G)[v]` (normalized, endpoints excluded):
the pair-dependency sum over ordered pairs, rescaled by
`1 / ((n-1)(n-2))` for `n > 2` and left unscaled otherwise. -/
def betweennessCentralityOf (g : Graph) (v : String) : ℚ :=
  let n := g.nodes.length
  let names := nodeNames g
  let raw : ℚ :=
    (names.map fun s =>
      (names.map fun t =>
        if s = t ∨ v = s ∨ v = t then 0 else sigmaRatio g s t v).sum).sum
  if n ≤ 2 then raw else raw / (((n : ℚ) - 1) * ((n : ℚ) - 2))

/-! ## Query layer -/

/-- ASCII lower-casing of one character, as `str.lower()` acts on the
ASCII names involved here. -/
def lowerChar (c : Char) : Char :=
  if 65 ≤ c.toNat ∧ c.toNat ≤ 90 then Char.ofNat (c.toNat + 32) else c

/-- `s.lower()`. -/
def strLower (s : String) : String := ⟨s.data.map lowerChar⟩

/-- Insert `a` into an `le`-sorted list, before the first element it
compares `le` to (so an element inserted from the left stays before the
elements it ties with). -/
def insertBy {α : Type} (le : α → α → Bool) (a : α) : List α → List α
  | [] => [a]
  | b :: bs => if le a b then a :: b :: bs else b :: insertBy le a bs

/-- Stable insertion sort; with a total preorder `le` this produces the
same list as Python's stable `list.sort`. -/
def sortBy {α : Type} (le : α → α → Bool) : List α → List α
  | [] => []
  | a :: as => insertBy le a (sortBy le as)

/-- `map_single_concept`'s name resolution: exact node-name match first,
otherwise the first case-insensitive match in node order. -/
def resolveFirst (g : Graph) (name : String) : Option String :=
  if hasNode g name then some name
  else (nodeNames g).find? fun node => strLower node = strLower name

/-- `find_concept_path`'s name resolution: scan every node, repeatedly
overwriting on a case-insensitive match, so the last match wins. -/
def resolveLast (g : Graph) (name : String) : Option String :=
  (nodeNames g).foldl
    (fun acc node => if strLower node = strLower name then some node else acc) none

structure RelatedConcept where
  concept : String
  strength : Nat
  shared_episodes : List String
deriving DecidableEq

structure EpisodeDetail where
  episode_id : String
  title : String
  definition : String
  application : String
deriving DecidableEq

structure ConceptDetail where
  concept : String
  occurrences : Nat
  episodes : List EpisodeDetail
  related_concepts : List RelatedConcept
  centrality_score : ℚ
  clustering_coefficient : ℚ
deriving DecidableEq

inductive SingleResult where
  | notFound (name : String)
  | ok (d : ConceptDetail)
deriving DecidableEq

/-- The per-episode enrichment loop of `map_single_concept`: look each
episode id up in the data manager (skipping unknown ids) and attach the
first concept entry matching the canonical name case-insensitively. -/
def episodeDetails (eps : List Episode) (concept : String) (epIds : List String) :
    List EpisodeDetail :=
  epIds.filterMap fun epId =>
    match eps.find? fun e => e.episode_id = epId with
    | none => none
    | some ep =>
      let det := ep.concepts_explored.findSome? fun oe =>
        match oe with
        | some e => if strLower e.concept = strLower concept then some e else none
        | none => none
      some ⟨epId, ep.title,
            (det.map fun e => e.definition_given).getD "",
            (det.map fun e => e.practical_application).getD ""⟩

/-- `map_single_concept`. -/
def mapSingleConcept (m : ConceptMapper) (name : String) : SingleResult :=
  match resolveFirst m.graph name with
  | none => .notFound name
  | some concept =>
    let related := (neighbors m.graph concept).map fun nb =>
      (⟨nb, weightOf m.graph concept nb, edgeEpisodesOf m.graph concept nb⟩ : RelatedConcept)
    let sorted := sortBy (fun x y => decide (y.strength ≤ x.strength)) related
    .ok ⟨concept, countOf m.graph concept,
         episodeDetails m.episodes concept (episodeIdsOf m.graph concept),
         sorted.take 10,
         degreeCentralityOf m.graph concept,
         clusteringCoeff m.graph concept⟩

structure ClusterInfo where
  size : Nat
  concepts : List String
  central_concept : String
  density : ℚ
deriving DecidableEq

/-- The annotation of one cluster: its size, members, most degree-central
member of the induced subgraph (first maximal in node order, as Python's
`max`), and internal density. -/
def clusterOf (g : Graph) (comp : List String) : ClusterInfo :=
  let sub := subgraphOn g comp
  let cents := (nodeNames sub).map fun c => (c, degreeCentralityOf sub c)
  let central :=
    match argmaxFirst cents with
    | some p => p.1
    | none => ""
  ⟨comp.length, comp, central, nxDensity sub⟩

/-- `_find_concept_clusters`: nothing below five nodes; otherwise the
connected components of size at least three, annotated, sorted by size
descending (stably), the first ten kept. -/
def findConceptClusters (g : Graph) : List ClusterInfo :=
  if g.nodes.length < 5 then []
  else
    let cs := (components g).filter fun c => 3 ≤ c.length
    (sortBy (fun x y => decide (y.size ≤ x.size)) (cs.map (clusterOf g))).take 10

structure StrongConnection where
  concept1 : String
  concept2 : String
  strength : Nat
  episodes : List String
deriving DecidableEq

structure Summary where
  total_concepts : Nat
  total_relationships : Nat
  top_concepts_by_frequency : List (String × Nat)
  top_concepts_by_centrality : List (String × ℚ)
  top_concepts_by_betweenness : List (String × ℚ)
  concept_clusters : List ClusterInfo
  strong_connections : List StrongConnection
  graph_density : ℚ
  average_clustering : ℚ
deriving DecidableEq

/-- `map_all_concepts`: all the summary metrics; the only fallible step is
`nx.average_clustering`, whose `ZeroDivisionError` on an empty graph
propagates out of the method. -/
def mapAllConcepts (m : ConceptMapper) : Except String Summary :=
  let g := m.graph
  match averageClustering g with
  | .error e => .error e
  | .ok avgc =>
    .ok ⟨g.nodes.length, g.edges.length,
         (sortBy (fun x y => decide (y.2 ≤ x.2)) (g.nodes.map fun p => (p.1, p.2.count))).take 20,
         (sortBy (fun x y => decide (y.2 ≤ x.2))
            ((nodeNames g).map fun c => (c, degreeCentralityOf g c))).take 20,
         (sortBy (fun x y => decide (y.2 ≤ x.2))
            ((nodeNames g).map fun c => (c, betweennessCentralityOf g c))).take 20,
         findConceptClusters g,
         (sortBy (fun x y => decide (y.strength ≤ x.strength))
            ((g.edges.filter fun e => 3 ≤ e.2.2.weight).map fun e =>
             (⟨e.1, e.2.1, e.2.2.weight, e.2.2.episodes⟩ : StrongConnection))).take 20,
         nxDensity g, avgc⟩

structure PathStep where
  stepFrom : String
  stepTo : String
  shared_episodes : List String
  strength : Nat
deriving DecidableEq

inductive PathResult where
  | notFound
  | noPath (concept1 concept2 : String)
  | found (concept1 concept2 : String) (path : List String) (path_length : Nat)
      (path_details : List PathStep)
deriving DecidableEq

/-- The `path_details` loop: weight and shared episodes of each consecutive
pair. -/
def pathDetails (g : Graph) (p : List String) : List PathStep :=
  (p.zip p.tail).map fun q => ⟨q.1, q.2, edgeEpisodesOf g q.1 q.2, weightOf g q.1 q.2⟩

/-- `find_concept_path`: resolve both names (last case-insensitive match
wins; an unresolved or falsy name gives the not-found error), then shortest
path or the distinct no-path error carrying both canonical names. -/
def findConceptPath (m : ConceptMapper) (a b : String) : PathResult :=
  match resolveLast m.graph a, resolveLast m.graph b with
  | some s, some t =>
    if s = "" ∨ t = "" then .notFound
    else
      match dist m.graph s t with
      | some d =>
        let p := pathTo m.graph s d t
        .found s t p (p.length - 1) (pathDetails m.graph p)
      | none => .noPath s t
  | _, _ => .notFound

structure VisNode where
  id : String
  label : String
  size : Nat
  episodes : Nat
deriving DecidableEq

structure VisEdge where
  source : String
  target : String
  weight : Nat
deriving DecidableEq

/-- `export_for_visualization`. -/
def exportForVisualization (m : ConceptMapper) : List VisNode × List VisEdge :=
  (m.graph.nodes.map fun p => ⟨p.1, p.1, p.2.count, p.2.episodes.length⟩,
   m.graph.edges.map fun e => ⟨e.1, e.2.1, e.2.2.weight⟩)

/-! ## Named properties, accessors and fixture data -/

/-- The number of mentions of `c` across all episodes' concept lists. -/
def totalMentions (eps : List Episode) (c : String) : Nat :=
  (eps.map fun e => (conceptNames e).count c).sum

/-- Each edge's weight equals the length of its shared-episode list, and
both are at least 1. -/
def edgeConsistent (g : Graph) : Prop :=
  ∀ e ∈ g.edges, e.2.2.weight = e.2.2.episodes.length ∧ 1 ≤ e.2.2.weight

/-- No two stored edges cover the same unordered pair (no multi-edges). -/
def simpleEdges (g : Graph) : Prop :=
  g.edges.Pairwise fun e1 e2 => sameEdge e1.1 e1.2.1 e2.1 e2.2.1 = false

/-- No stored edge joins a name to itself. -/
def noSelfLoops (g : Graph) : Prop :=
  ∀ e ∈ g.edges, e.1 ≠ e.2.1

/-- Every edge endpoint is a node of the graph. -/
def edgeClosed (g : Graph) : Prop :=
  ∀ e ∈ g.edges, e.1 ∈ nodeNames g ∧ e.2.1 ∈ nodeNames g

/-- The basic well-formedness of graphs produced by the builder: node keys
are distinct and non-empty, and edges join existing nodes. -/
def wellFormed (g : Graph) : Prop :=
  (nodeNames g).Nodup ∧ (∀ c ∈ nodeNames g, c ≠ "") ∧ edgeClosed g

/-- The centrality score reported by a successful single-concept query. -/
def centralityOf : SingleResult → Option ℚ
  | .ok d => some d.centrality_score
  | .notFound _ => none

/-- The canonical node a successful single-concept query resolved to. -/
def resolvedOf : SingleResult → Option String
  | .ok d => some d.concept
  | .notFound _ => none

/-- The names in the related-concepts list of a single-concept query
(empty for a failed query). -/
def relatedNamesOf : SingleResult → List String
  | .ok d => d.related_concepts.map RelatedConcept.concept
  | .notFound _ => []

def isOkSingle : SingleResult → Bool
  | .ok _ => true
  | .notFound _ => false

/-- The cluster list of a full-map summary (empty for a raised error). -/
def clustersOf : Except String Summary → List ClusterInfo
  | .ok s => s.concept_clusters
  | .error _ => []

def isOkSummary : Except String Summary → Bool
  | .ok _ => true
  | .error _ => false

/-- An episode whose concept list mentions `A` twice. -/
def epDup : Episode := ⟨"E1", "t", [some ⟨"A", "", ""⟩, some ⟨"B", "", ""⟩, some ⟨"A", "", ""⟩]⟩

/-- An episode with concept list `[A, B]`. -/
def epAB : Episode := ⟨"E1", "t", [some ⟨"A", "", ""⟩, some ⟨"B", "", ""⟩]⟩

/-- An episode with the single concept `A`. -/
def epA : Episode := ⟨"E1", "t", [some ⟨"A", "", ""⟩]⟩

/-- An episode introducing the node `Stoicism`. -/
def epSto : Episode := ⟨"E1", "t", [some ⟨"Stoicism", "", ""⟩]⟩

/-- A later episode introducing the distinct case-variant node `stoicism`. -/
def epSto2 : Episode := ⟨"E2", "t2", [some ⟨"stoicism", "", ""⟩]⟩

/-- A mapper whose graph holds two case-variants of the same word. -/
def mSto : ConceptMapper := ConceptMapper.init [epSto, epSto2]

/-- Eleven episodes, each pairing `A` with a fresh `Bi`, so that `A` ends
up with eleven neighbours. -/
def epsBig : List Episode :=
  [⟨"E0", "t", [some ⟨"A", "", ""⟩, some ⟨"B0", "", ""⟩]⟩,
   ⟨"E1", "t", [some ⟨"A", "", ""⟩, some ⟨"B1", "", ""⟩]⟩,
   ⟨"E2", "t", [some ⟨"A", "", ""⟩, some ⟨"B2", "", ""⟩]⟩,
   ⟨"E3", "t", [some ⟨"A", "", ""⟩, some ⟨"B3", "", ""⟩]⟩,
   ⟨"E4", "t", [some ⟨"A", "", ""⟩, some ⟨"B4", "", ""⟩]⟩,
   ⟨"E5", "t", [some ⟨"A", "", ""⟩, some ⟨"B5", "", ""⟩]⟩,
   ⟨"E6", "t", [some ⟨"A", "", ""⟩, some ⟨"B6", "", ""⟩]⟩,
   ⟨"E7", "t", [some ⟨"A", "", ""⟩, some ⟨"B7", "", ""⟩]⟩,
   ⟨"E8", "t", [some ⟨"A", "", ""⟩, some ⟨"B8", "", ""⟩]⟩,
   ⟨"E9", "t", [some ⟨"A", "", ""⟩, some ⟨"B9", "", ""⟩]⟩,
   ⟨"E10", "t", [some ⟨"A", "", ""⟩, some ⟨"B10", "", ""⟩]⟩]

def mBig : ConceptMapper := ConceptMapper.init epsBig

/-- A walk in the graph: consecutive vertices are joined by edges. -/
def isWalk (g : Graph) (p : List String) : Prop :=
  List.Chain' (fun a b => hasEdge g a b = true) p

/-- A walk leading from `s` to `t`; its edge count is `p.length - 1`. -/
def walkFrom (g : Graph) (s t : String) (p : List String) : Prop :=
  isWalk g p ∧ p.head? = some s ∧ p.getLast? = some t

/-- The suffix of a list starting at the first occurrence of `x`. -/
def dropUntil (x : String) : List String → List String
  | [] => []
  | y :: ys => if y = x then y :: ys else dropUntil x ys

/-- Remove internal repetitions from a walk, keeping its two endpoints:
a vertex already present later absorbs the detour before it. -/
def bypass : List String → List String
  | [] => []
  | x :: xs =>
    let b := bypass xs
    if b.contains x then dropUntil x b else x :: b

/-- What `find_concept_path` guarantees for resolved endpoints `s`, `t`:
either a walk is returned whose reported length is its edge count, equals
the BFS distance, and is minimal among all connecting walks, with the
per-step edge details; or the distinct no-path error is returned carrying
both canonical names, and no connecting walk exists. -/
def PathSpec (m : ConceptMapper) (a b s t : String) : Prop :=
  (∃ p det, findConceptPath m a b = .found s t p (p.length - 1) det ∧
    walkFrom m.graph s t p ∧ dist m.graph s t = some (p.length - 1) ∧
    det = pathDetails m.graph p ∧
    (∀ q, walkFrom m.graph s t q → p.length - 1 ≤ q.length - 1)) ∨
  (findConceptPath m a b = .noPath s t ∧ ¬∃ q, walkFrom m.graph s t q)

/-- A two-episode corpus whose graph is the path `A - B - C`. -/
def epsPath : List Episode :=
  [⟨"E1", "t", [some ⟨"A", "", ""⟩, some ⟨"B", "", ""⟩]⟩,
   ⟨"E2", "t2", [some ⟨"B", "", ""⟩, some ⟨"C", "", ""⟩]⟩]

/-- One episode whose three concepts form a triangle component. -/
def epTri : Episode := ⟨"E1", "t", [some ⟨"A", "", ""⟩, some ⟨"B", "", ""⟩, some ⟨"C", "", ""⟩]⟩

def mTri : ConceptMapper := ConceptMapper.init [epTri]

/-- A five-node corpus: the `A,B,C` triangle plus two isolated concepts. -/
def epsClu : List Episode :=
  [epTri, ⟨"E2", "t2", [some ⟨"D", "", ""⟩]⟩, ⟨"E3", "t3", [some ⟨"F", "", ""⟩]⟩]

/-! ## Infrastructure lemmas -/

theorem foldl_preserve {α β : Type} (P : β → Prop) (f : β → α → β) :
    ∀ (l : List α), (∀ b a, a ∈ l → P b → P (f b a)) → ∀ b, P b → P (l.foldl f b) := by
  intro l
  induction l with
  | nil => intro _ b hb; simpa
  | cons x xs ih =>
    intro h b hb
    simp only [List.foldl_cons]
    exact ih (fun b a ha hb => h b a (List.mem_cons_of_mem _ ha) hb) _
      (h b x (List.mem_cons_self _ _) hb)

theorem find?_map_congr {β : Type} (f : β → β) (p : β → Bool)
    (hp : ∀ x, p (f x) = p x) :
    ∀ l : List β, (l.map f).find? p = (l.find? p).map f := by
  intro l
  induction l with
  | nil => rfl
  | cons x xs ih =>
    simp only [List.map_cons, List.find?]
    rw [hp x]
    cases hx : p x <;> simp [hx, ih]

theorem find?_append_right {β : Type} (p : β → Bool) (l₁ l₂ : List β)
    (h : l₁.find? p = none) : (l₁ ++ l₂).find? p = l₂.find? p := by
  induction l₁ with
  | nil => rfl
  | cons x xs ih =>
    simp only [List.find?] at h ⊢
    cases hx : p x
    · simp only [hx] at h; simp only [List.cons_append, List.find?, hx]; exact ih h
    · simp [hx] at h

theorem find?_append_left {β : Type} (p : β → Bool) (l₁ l₂ : List β) {b : β}
    (h : l₁.find? p = some b) : (l₁ ++ l₂).find? p = some b := by
  induction l₁ with
  | nil => simp at h
  | cons x xs ih =>
    simp only [List.find?] at h ⊢
    cases hx : p x
    · simp only [hx] at h; simp only [List.cons_append, List.find?, hx]; exact ih h
    · simp only [hx] at h; simpa [List.find?, hx] using h

theorem insertBy_perm {α : Type} (le : α → α → Bool) (a : α) :
    ∀ l : List α, (insertBy le a l).Perm (a :: l) := by
  intro l
  induction l with
  | nil => exact List.Perm.refl _
  | cons b bs ih =>
    simp only [insertBy]
    split
    · exact List.Perm.refl _
    · exact (ih.cons b).trans (List.Perm.swap a b bs)

theorem sortBy_perm {α : Type} (le : α → α → Bool) :
    ∀ l : List α, (sortBy le l).Perm l := by
  intro l
  induction l with
  | nil => exact List.Perm.refl _
  | cons a as ih =>
    simp only [sortBy]
    exact (insertBy_perm le a _).trans (ih.cons a)

theorem insertBy_pairwise {α : Type} {le : α → α → Bool}
    (htot : ∀ x y, le x y = true ∨ le y x = true)
    (htrans : ∀ x y z, le x y = true → le y z = true → le x z = true) (a : α) :
    ∀ l : List α, l.Pairwise (fun x y => le x y = true) →
      (insertBy le a l).Pairwise (fun x y => le x y = true) := by
  intro l
  induction l with
  | nil => intro _; simp [insertBy]
  | cons b bs ih =>
    intro h
    obtain ⟨hb, hbs⟩ := List.pairwise_cons.1 h
    simp only [insertBy]
    by_cases hab : le a b = true
    · rw [if_pos hab]
      refine List.pairwise_cons.2 ⟨?_, h⟩
      intro y hy
      rcases List.mem_cons.1 hy with rfl | hy
      · exact hab
      · exact htrans a b y hab (hb y hy)
    · rw [if_neg hab]
      have hba : le b a = true := (htot a b).resolve_left hab
      refine List.pairwise_cons.2 ⟨?_, ih hbs⟩
      intro y hy
      have : y ∈ a :: bs := (insertBy_perm le a bs).mem_iff.1 hy
      rcases List.mem_cons.1 this with rfl | hy2
      · exact hba
      · exact hb y hy2

theorem sortBy_pairwise {α : Type} {le : α → α → Bool}
    (htot : ∀ x y, le x y = true ∨ le y x = true)
    (htrans : ∀ x y z, le x y = true → le y z = true → le x z = true) :
    ∀ l : List α, (sortBy le l).Pairwise fun x y => le x y = true := by
  intro l
  induction l with
  | nil => simp [sortBy]
  | cons a as ih =>
    simp only [sortBy]
    exact insertBy_pairwise htot htrans a _ ih

theorem hasNode_iff_entry (g : Graph) (c : String) :
    hasNode g c = true ↔ (nodeEntry g c).isSome = true := by
  simp only [hasNode, nodeNames, nodeEntry, List.contains_iff_exists_mem_beq, List.find?_isSome]
  constructor
  · rintro ⟨x, hx, hbeq⟩
    obtain ⟨p, hp, rfl⟩ := List.mem_map.1 hx
    exact ⟨p, hp, by simpa using (beq_iff_eq.mp hbeq).symm⟩
  · rintro ⟨p, hp, heq⟩
    exact ⟨p.1, List.mem_map_of_mem _ hp, by simpa using (of_decide_eq_true heq).symm⟩

theorem hasEdge_iff_entry (g : Graph) (a b : String) :
    hasEdge g a b = true ↔ (edgeEntry g a b).isSome = true := by
  simp only [hasEdge, edgeEntry, List.any_eq_true, List.find?_isSome]

theorem nodeEntry_eq_none_of_not_hasNode {g : Graph} {c : String}
    (h : hasNode g c = false) : nodeEntry g c = none := by
  cases he : nodeEntry g c
  · rfl
  · exact absurd ((hasNode_iff_entry g c).2 (by simp [he])) (by simp [h])

theorem edgeEntry_eq_none_of_not_hasEdge {g : Graph} {a b : String}
    (h : hasEdge g a b = false) : edgeEntry g a b = none := by
  cases he : edgeEntry g a b
  · rfl
  · exact absurd ((hasEdge_iff_entry g a b).2 (by simp [he])) (by simp [h])

/-! ### sameEdge lemmas -/

theorem sameEdge_refl (a b : String) : sameEdge a b a b = true := by
  simp [sameEdge]

theorem sameEdge_symm_pair (a b x y : String) : sameEdge a b x y = sameEdge b a x y := by
  simp only [sameEdge, decide_eq_decide]
  tauto

theorem sameEdge_swap (a b x y : String) : sameEdge a b x y = sameEdge x y a b := by
  simp only [sameEdge, decide_eq_decide]
  constructor <;> rintro (⟨rfl, rfl⟩ | ⟨rfl, rfl⟩) <;> tauto

theorem sameEdge_congr {a b u v : String} (h : sameEdge a b u v = true) :
    ∀ x y, sameEdge a b x y = sameEdge u v x y := by
  intro x y
  simp only [sameEdge, decide_eq_true_eq] at h
  simp only [sameEdge, decide_eq_decide]
  rcases h with ⟨rfl, rfl⟩ | ⟨rfl, rfl⟩ <;> tauto

theorem sameEdge_of_both {a b u v x y : String} (h1 : sameEdge a b x y = true)
    (h2 : sameEdge u v x y = true) : sameEdge a b u v = true := by
  simp only [sameEdge, decide_eq_true_eq] at h1 h2 ⊢
  rcases h1 with ⟨rfl, rfl⟩ | ⟨rfl, rfl⟩ <;> rcases h2 with ⟨rfl, rfl⟩ | ⟨rfl, rfl⟩ <;> tauto

/-! ### Effect of the builder steps on graph components -/

theorem bumpNode_key (c ep : String) (p : String × NodeData) :
    (bumpNode c ep p).1 = p.1 := by
  unfold bumpNode; split <;> rfl

theorem bumpNode_of_eq {c : String} (ep : String) {p : String × NodeData} (h : p.1 = c) :
    bumpNode c ep p = (p.1, ⟨p.2.episodes ++ [ep], p.2.count + 1⟩) := by
  unfold bumpNode; rw [if_pos h]

theorem bumpNode_of_ne {c : String} (ep : String) {p : String × NodeData} (h : p.1 ≠ c) :
    bumpNode c ep p = p := by
  unfold bumpNode; rw [if_neg h]

theorem bumpEdge_fst (a b ep : String) (e : String × String × EdgeData) :
    (bumpEdge a b ep e).1 = e.1 := by
  unfold bumpEdge; split <;> rfl

theorem bumpEdge_snd (a b ep : String) (e : String × String × EdgeData) :
    (bumpEdge a b ep e).2.1 = e.2.1 := by
  unfold bumpEdge; split <;> rfl

theorem bumpEdge_of_same {a b : String} (ep : String) {e : String × String × EdgeData}
    (h : sameEdge a b e.1 e.2.1 = true) :
    bumpEdge a b ep e = (e.1, e.2.1, ⟨e.2.2.weight + 1, e.2.2.episodes ++ [ep]⟩) := by
  unfold bumpEdge; rw [if_pos h]

theorem bumpEdge_of_not_same {a b : String} (ep : String) {e : String × String × EdgeData}
    (h : sameEdge a b e.1 e.2.1 = false) : bumpEdge a b ep e = e := by
  unfold bumpEdge; rw [if_neg (by simp [h])]

theorem addNodeMention_of_hasNode {g : Graph} {x : String} (ep : String)
    (hn : hasNode g x = true) :
    addNodeMention g x ep = ⟨g.nodes.map (bumpNode x ep), g.edges⟩ := by
  simp only [addNodeMention]
  rw [if_pos hn]

theorem addNodeMention_of_not_hasNode {g : Graph} {x : String} (ep : String)
    (hn : hasNode g x = false) :
    addNodeMention g x ep
      = ⟨(g.nodes ++ [(x, (⟨[], 0⟩ : NodeData))]).map (bumpNode x ep), g.edges⟩ := by
  simp only [addNodeMention]
  rw [if_neg (by simp [hn])]

theorem addEdgePair_of_hasEdge {g : Graph} {p : String × String} (ep : String)
    (h : hasEdge g p.1 p.2 = true) :
    addEdgePair g p ep = ⟨g.nodes, g.edges.map (bumpEdge p.1 p.2 ep)⟩ := by
  simp only [addEdgePair]
  rw [if_pos h]

theorem addEdgePair_of_not_hasEdge {g : Graph} {p : String × String} (ep : String)
    (h : hasEdge g p.1 p.2 = false) :
    addEdgePair g p ep = ⟨g.nodes, g.edges ++ [(p.1, p.2, ⟨1, [ep]⟩)]⟩ := by
  simp only [addEdgePair]
  rw [if_neg (by simp [h])]

theorem addNodeMention_edges (g : Graph) (c ep : String) :
    (addNodeMention g c ep).edges = g.edges := by
  cases hn : hasNode g c
  · rw [addNodeMention_of_not_hasNode ep hn]
  · rw [addNodeMention_of_hasNode ep hn]

theorem addEdgePair_nodes (g : Graph) (p : String × String) (ep : String) :
    (addEdgePair g p ep).nodes = g.nodes := by
  cases he : hasEdge g p.1 p.2
  · rw [addEdgePair_of_not_hasEdge ep he]
  · rw [addEdgePair_of_hasEdge ep he]

theorem foldl_addNodeMention_edges (g : Graph) (names : List String) (ep : String) :
    (names.foldl (fun h c => addNodeMention h c ep) g).edges = g.edges := by
  induction names generalizing g with
  | nil => rfl
  | cons x xs ih => simp only [List.foldl_cons]; rw [ih, addNodeMention_edges]

theorem foldl_addEdgePair_nodes (g : Graph) (ps : List (String × String)) (ep : String) :
    (ps.foldl (fun h p => addEdgePair h p ep) g).nodes = g.nodes := by
  induction ps generalizing g with
  | nil => rfl
  | cons x xs ih => simp only [List.foldl_cons]; rw [ih, addEdgePair_nodes]

/-! ### nodeEntry / edgeEntry through the builder steps -/

theorem nodeEntry_addNodeMention (g : Graph) (x ep c : String) :
    nodeEntry (addNodeMention g x ep) c
      = if x = c then some (c, ⟨episodeIdsOf g c ++ [ep], countOf g c + 1⟩)
        else nodeEntry g c := by
  have hpred : ∀ p : String × NodeData,
      (decide ((bumpNode x ep p).1 = c)) = decide (p.1 = c) := by
    intro p; rw [bumpNode_key]
  cases hn : hasNode g x
  · rw [addNodeMention_of_not_hasNode ep hn]
    have hnone : nodeEntry g x = none := nodeEntry_eq_none_of_not_hasNode hn
    by_cases hx : x = c
    · subst hx
      simp only [nodeEntry] at hnone ⊢
      rw [find?_map_congr _ _ hpred, find?_append_right _ _ _ hnone]
      simp [List.find?, bumpNode, episodeIdsOf, countOf, nodeEntry, hnone]
    · simp only [nodeEntry, if_neg hx]
      rw [find?_map_congr _ _ hpred]
      cases h : List.find? (fun p : String × NodeData => decide (p.1 = c)) g.nodes with
      | none =>
        rw [find?_append_right _ _ _ h]
        simp [List.find?, hx]
      | some q =>
        rw [find?_append_left _ _ _ h]
        have hpc : q.1 = c := by simpa using List.find?_some h
        simp [bumpNode_of_ne ep (hpc ▸ Ne.symm hx)]
  · rw [addNodeMention_of_hasNode ep hn]
    by_cases hx : x = c
    · subst hx
      obtain ⟨q, hq⟩ := Option.isSome_iff_exists.1 ((hasNode_iff_entry g x).1 hn)
      have hqx : q.1 = x := by simpa using List.find?_some hq
      simp only [nodeEntry] at hq ⊢
      rw [find?_map_congr _ _ hpred, hq]
      simp [bumpNode_of_eq ep hqx, hqx, episodeIdsOf, countOf, nodeEntry, hq]
    · simp only [nodeEntry, if_neg hx]
      rw [find?_map_congr _ _ hpred]
      cases h : List.find? (fun p : String × NodeData => decide (p.1 = c)) g.nodes with
      | none => simp
      | some q =>
        have hpc : q.1 = c := by simpa using List.find?_some h
        simp [bumpNode_of_ne ep (hpc ▸ Ne.symm hx)]

theorem countOf_addNodeMention (g : Graph) (x ep c : String) :
    countOf (addNodeMention g x ep) c = countOf g c + (if x = c then 1 else 0) := by
  by_cases hx : x = c <;>
    simp [countOf, nodeEntry_addNodeMention, hx]

theorem episodeIdsOf_addNodeMention (g : Graph) (x ep c : String) :
    episodeIdsOf (addNodeMention g x ep) c
      = episodeIdsOf g c ++ (if x = c then [ep] else []) := by
  by_cases hx : x = c <;>
    simp [episodeIdsOf, countOf, nodeEntry_addNodeMention, hx]

theorem weight_episodes_addEdgePair (g : Graph) (u v ep a b : String) :
    weightOf (addEdgePair g (u, v) ep) a b
        = weightOf g a b + (if sameEdge a b u v then 1 else 0)
      ∧ edgeEpisodesOf (addEdgePair g (u, v) ep) a b
        = edgeEpisodesOf g a b ++ (if sameEdge a b u v then [ep] else []) := by
  have hpred : ∀ e : String × String × EdgeData,
      sameEdge a b (bumpEdge u v ep e).1 (bumpEdge u v ep e).2.1
        = sameEdge a b e.1 e.2.1 := by
    intro e; rw [bumpEdge_fst, bumpEdge_snd]
  cases hs : sameEdge a b u v
  · cases he : hasEdge g (u, v).1 (u, v).2
    · rw [addEdgePair_of_not_hasEdge ep he]
      constructor <;>
      · simp only [weightOf, edgeEpisodesOf, edgeEntry]
        cases h : List.find? (fun e : String × String × EdgeData =>
            sameEdge a b e.1 e.2.1) g.edges
        · rw [find?_append_right _ _ _ h]
          simp [List.find?, hs]
        · rw [find?_append_left _ _ _ h]
          simp
    · rw [addEdgePair_of_hasEdge ep he]
      constructor <;>
      · simp only [weightOf, edgeEpisodesOf, edgeEntry]
        rw [find?_map_congr _ _ hpred]
        cases h : List.find? (fun e : String × String × EdgeData =>
            sameEdge a b e.1 e.2.1) g.edges with
        | none => simp
        | some q =>
          have hab : sameEdge a b q.1 q.2.1 = true := by
            simpa using List.find?_some h
          have huv : sameEdge u v q.1 q.2.1 = false := by
            cases huv : sameEdge u v q.1 q.2.1
            · rfl
            · exact absurd (sameEdge_of_both hab huv) (by simp [hs])
          simp [bumpEdge_of_not_same ep huv]
  · have hedge : ∀ e : String × String × EdgeData,
        sameEdge a b e.1 e.2.1 = sameEdge u v e.1 e.2.1 := fun e =>
      sameEdge_congr hs e.1 e.2.1
    have habuv : hasEdge g a b = hasEdge g u v := by
      simp only [hasEdge]
      congr 1
      funext e
      rw [hedge]
    cases he : hasEdge g (u, v).1 (u, v).2
    · rw [addEdgePair_of_not_hasEdge ep he]
      have hnone : edgeEntry g a b = none :=
        edgeEntry_eq_none_of_not_hasEdge (by rw [habuv]; exact he)
      simp only [edgeEntry] at hnone
      constructor <;>
      · simp only [weightOf, edgeEpisodesOf, edgeEntry]
        rw [find?_append_right _ _ _ hnone]
        simp [List.find?, hs, hnone]
    · rw [addEdgePair_of_hasEdge ep he]
      have hsome : (edgeEntry g a b).isSome = true := by
        rw [← hasEdge_iff_entry, habuv]; exact he
      obtain ⟨q, hq⟩ := Option.isSome_iff_exists.1 hsome
      simp only [edgeEntry] at hq
      have hab : sameEdge a b q.1 q.2.1 = true := by simpa using List.find?_some hq
      have huv : sameEdge u v q.1 q.2.1 = true := by rw [← hedge]; exact hab
      constructor <;>
      · simp only [weightOf, edgeEpisodesOf, edgeEntry]
        rw [find?_map_congr _ _ hpred, hq]
        simp [bumpEdge_of_same ep huv, hq]

theorem weightOf_addEdgePair (g : Graph) (u v ep a b : String) :
    weightOf (addEdgePair g (u, v) ep) a b
      = weightOf g a b + (if sameEdge a b u v then 1 else 0) :=
  (weight_episodes_addEdgePair g u v ep a b).1

theorem countOf_congr_nodes {g g' : Graph} (h : g.nodes = g'.nodes) (c : String) :
    countOf g c = countOf g' c := by
  simp only [countOf, nodeEntry, h]

theorem episodeIdsOf_congr_nodes {g g' : Graph} (h : g.nodes = g'.nodes) (c : String) :
    episodeIdsOf g c = episodeIdsOf g' c := by
  simp only [episodeIdsOf, nodeEntry, h]

theorem weightOf_congr_edges {g g' : Graph} (h : g.edges = g'.edges) (a b : String) :
    weightOf g a b = weightOf g' a b := by
  simp only [weightOf, edgeEntry, h]

theorem countOf_foldl_addNodeMention (ep c : String) :
    ∀ (names : List String) (g : Graph),
      countOf (names.foldl (fun h x => addNodeMention h x ep) g) c
        = countOf g c + names.count c := by
  intro names
  induction names with
  | nil => intro g; simp
  | cons x xs ih =>
    intro g
    simp only [List.foldl_cons, ih, countOf_addNodeMention, List.count_cons]
    by_cases hx : x = c
    · simp [hx]
      omega
    · simp [hx, Ne.symm hx]

theorem episodeIds_len_foldl_addNodeMention (ep c : String) :
    ∀ (names : List String) (g : Graph),
      (episodeIdsOf (names.foldl (fun h x => addNodeMention h x ep) g) c).length
        = (episodeIdsOf g c).length + names.count c := by
  intro names
  induction names with
  | nil => intro g; simp
  | cons x xs ih =>
    intro g
    simp only [List.foldl_cons, ih, episodeIdsOf_addNodeMention, List.count_cons,
      List.length_append]
    by_cases hx : x = c
    · simp [hx]
      omega
    · simp [hx, Ne.symm hx]

theorem countOf_processEpisode (g : Graph) (ep : Episode) (c : String) :
    countOf (processEpisode g ep) c = countOf g c + (conceptNames ep).count c := by
  unfold processEpisode
  rw [countOf_congr_nodes (foldl_addEdgePair_nodes _ _ _)]
  exact countOf_foldl_addNodeMention _ _ _ _

theorem episodeIds_len_processEpisode (g : Graph) (ep : Episode) (c : String) :
    (episodeIdsOf (processEpisode g ep) c).length
      = (episodeIdsOf g c).length + (conceptNames ep).count c := by
  unfold processEpisode
  rw [episodeIdsOf_congr_nodes (foldl_addEdgePair_nodes _ _ _)]
  exact episodeIds_len_foldl_addNodeMention _ _ _ _

theorem countOf_foldl_processEpisode (c : String) :
    ∀ (l : List Episode) (g : Graph),
      countOf (l.foldl processEpisode g) c = countOf g c + totalMentions l c := by
  intro l
  induction l with
  | nil => intro g; simp [totalMentions]
  | cons e es ih =>
    intro g
    simp only [List.foldl_cons, ih, countOf_processEpisode, totalMentions, List.map_cons,
      List.sum_cons]
    omega

theorem episodeIds_len_foldl_processEpisode (c : String) :
    ∀ (l : List Episode) (g : Graph),
      (episodeIdsOf (l.foldl processEpisode g) c).length
        = (episodeIdsOf g c).length + totalMentions l c := by
  intro l
  induction l with
  | nil => intro g; simp [totalMentions]
  | cons e es ih =>
    intro l
    simp only [List.foldl_cons, ih, episodeIds_len_processEpisode, totalMentions,
      List.map_cons, List.sum_cons]
    omega

/-- C1 (amended): the node counter counts every mention, once per occurrence
in a concept list, not once per distinct episode; it always equals
the length of the node's episode-id list. -/
theorem occurrenceCount_counts_every_mention (eps : List Episode) (c : String) :
    countOf (buildConceptGraph eps) c = totalMentions eps c ∧
    (episodeIdsOf (buildConceptGraph eps) c).length = countOf (buildConceptGraph eps) c := by
  unfold buildConceptGraph
  rw [countOf_foldl_processEpisode, episodeIds_len_foldl_processEpisode]
  simp [countOf, episodeIdsOf, nodeEntry, Graph.emptyGraph]

/-- C1 (counterexample): after building from one episode whose list is
`[A, B, A]`, node `A`'s `count` is `2`, while the number of distinct
episodes containing `A` is `1` — `occurrenceCount` is not the number of
distinct episodes. -/
theorem occurrenceCount_exceeds_distinct_episodes :
    countOf (buildConceptGraph [epDup]) "A" = 2 ∧
    ((episodeIdsOf (buildConceptGraph [epDup]) "A").dedup).length = 1 := by decide

/-- C9: appending an episode with concept list `[A, B, A]` (for distinct
`A`, `B`) increments `A`'s occurrence count by exactly 2 and the weight of
edge `(A, B)` by exactly 2. -/
theorem duplicate_episode_increments_by_two (eps : List Episode) (ep : Episode)
    (A B : String) (hnames : conceptNames ep = [A, B, A]) (hAB : A ≠ B) :
    countOf (buildConceptGraph (eps ++ [ep])) A
        = countOf (buildConceptGraph eps) A + 2 ∧
    weightOf (buildConceptGraph (eps ++ [ep])) A B
        = weightOf (buildConceptGraph eps) A B + 2 := by
  have hb : buildConceptGraph (eps ++ [ep])
      = processEpisode (buildConceptGraph eps) ep := by
    simp [buildConceptGraph, List.foldl_append]
  rw [hb]
  constructor
  · rw [countOf_processEpisode, hnames]
    simp [List.count_cons, hAB, Ne.symm hAB]
  · have hAA : sameEdge A B A A = false := by
      simp only [sameEdge, decide_eq_false_iff_not]
      rintro (⟨-, h⟩ | ⟨-, h⟩) <;> exact hAB h.symm
    have hBA : sameEdge A B B A = true := by
      simp [sameEdge]
    unfold processEpisode
    rw [hnames]
    simp only [allPairs, List.map, List.append_nil, List.cons_append, List.nil_append,
      List.foldl_cons, List.foldl_nil]
    have hwn : ∀ (g : Graph) (x e a b : String),
        weightOf (addNodeMention g x e) a b = weightOf g a b :=
      fun g x e a b => weightOf_congr_edges (addNodeMention_edges g x e) a b
    rw [weightOf_addEdgePair, weightOf_addEdgePair, weightOf_addEdgePair,
      hwn, hwn, hwn, sameEdge_refl, hAA, hBA]
    simp

theorem edgeConsistent_addEdgePair {g : Graph} (p : String × String) (ep : String)
    (h : edgeConsistent g) : edgeConsistent (addEdgePair g p ep) := by
  intro e he
  cases hed : hasEdge g p.1 p.2
  · rw [addEdgePair_of_not_hasEdge ep hed] at he
    rcases List.mem_append.1 he with h1 | h1
    · exact h e h1
    · simp only [List.mem_singleton] at h1
      subst h1
      simp
  · rw [addEdgePair_of_hasEdge ep hed] at he
    obtain ⟨e0, he0, rfl⟩ := List.mem_map.1 he
    unfold bumpEdge
    split
    · have := h e0 he0
      simp
      omega
    · exact h e0 he0

theorem edgeConsistent_processEpisode {g : Graph} (ep : Episode)
    (h : edgeConsistent g) : edgeConsistent (processEpisode g ep) := by
  unfold processEpisode
  apply foldl_preserve edgeConsistent _ _ (fun b a _ hb => edgeConsistent_addEdgePair a _ hb)
  have hedges : ∀ (names : List String) (g : Graph),
      ((names.foldl (fun h c => addNodeMention h c ep.episode_id) g)).edges = g.edges :=
    fun names g => foldl_addNodeMention_edges g names ep.episode_id
  intro e he
  rw [hedges] at he
  exact h e he

/-- C10: every edge of a built graph has `weight = len(episodes) ≥ 1`:
weight and shared-episode list are updated together and never created
empty. -/
theorem edge_weight_matches_episode_list (eps : List Episode) :
    edgeConsistent (buildConceptGraph eps) := by
  unfold buildConceptGraph
  apply foldl_preserve edgeConsistent _ _ (fun b a _ hb => edgeConsistent_processEpisode a hb)
  intro e he
  simp [Graph.emptyGraph] at he

theorem duplicate_episode_increments_by_two_witness :
    (conceptNames epDup = ["A", "B", "A"] ∧ ("A" : String) ≠ "B") ∧
    countOf (buildConceptGraph ([] ++ [epDup])) "A"
        = countOf (buildConceptGraph []) "A" + 2 ∧
    weightOf (buildConceptGraph ([] ++ [epDup])) "A" "B"
        = weightOf (buildConceptGraph []) "A" "B" + 2 :=
  ⟨⟨by decide, by decide⟩,
    duplicate_episode_increments_by_two [] epDup "A" "B" (by decide) (by decide)⟩

theorem edge_weight_matches_episode_list_witness :
    (("A", "B", (⟨1, ["E1"]⟩ : EdgeData)) ∈ (buildConceptGraph [epAB]).edges) ∧
    ((⟨1, ["E1"]⟩ : EdgeData).weight = (⟨1, ["E1"]⟩ : EdgeData).episodes.length ∧
      1 ≤ (⟨1, ["E1"]⟩ : EdgeData).weight) :=
  ⟨by decide, edge_weight_matches_episode_list [epAB] ("A", "B", ⟨1, ["E1"]⟩) (by decide)⟩

/-! ## C2: the graph is simple, but self-loops arise from duplicate names -/

theorem simpleEdges_congr_edges {g g' : Graph} (h : g.edges = g'.edges)
    (hs : simpleEdges g) : simpleEdges g' := by
  unfold simpleEdges at hs ⊢
  rwa [h] at hs

theorem simpleEdges_addEdgePair {g : Graph} (p : String × String) (ep : String)
    (h : simpleEdges g) : simpleEdges (addEdgePair g p ep) := by
  cases hed : hasEdge g p.1 p.2
  · rw [addEdgePair_of_not_hasEdge ep hed]
    unfold simpleEdges at h ⊢
    rw [List.pairwise_append]
    refine ⟨h, by simp, ?_⟩
    intro e1 he1 e2 he2
    simp only [List.mem_singleton] at he2
    subst he2
    have hall : ∀ e ∈ g.edges, sameEdge p.1 p.2 e.1 e.2.1 = false := by
      intro e he
      cases hse : sameEdge p.1 p.2 e.1 e.2.1
      · rfl
      · have htrue : hasEdge g p.1 p.2 = true := by
          unfold hasEdge
          exact List.any_eq_true.2 ⟨e, he, hse⟩
        rw [htrue] at hed
        exact Bool.noConfusion hed
    rw [sameEdge_swap]
    exact hall e1 he1
  · rw [addEdgePair_of_hasEdge ep hed]
    unfold simpleEdges at h ⊢
    rw [List.pairwise_map]
    exact h.imp fun hab => by
      rwa [bumpEdge_fst, bumpEdge_snd, bumpEdge_fst, bumpEdge_snd]

theorem noSelfLoops_addEdgePair {g : Graph} {p : String × String} (ep : String)
    (hne : p.1 ≠ p.2) (h : noSelfLoops g) : noSelfLoops (addEdgePair g p ep) := by
  cases hed : hasEdge g p.1 p.2
  · rw [addEdgePair_of_not_hasEdge ep hed]
    intro e he
    rcases List.mem_append.1 he with h1 | h1
    · exact h e h1
    · simp only [List.mem_singleton] at h1
      subst h1
      exact hne
  · rw [addEdgePair_of_hasEdge ep hed]
    intro e he
    obtain ⟨e0, he0, rfl⟩ := List.mem_map.1 he
    rw [bumpEdge_fst, bumpEdge_snd]
    exact h e0 he0

theorem allPairs_ne_of_nodup :
    ∀ l : List String, l.Nodup → ∀ p ∈ allPairs l, p.1 ≠ p.2 := by
  intro l
  induction l with
  | nil => intro _ p hp; simp [allPairs] at hp
  | cons x xs ih =>
    intro hnd p hp
    simp only [allPairs, List.mem_append] at hp
    rcases hp with hp | hp
    · obtain ⟨y, hy, rfl⟩ := List.mem_map.1 hp
      show x ≠ y
      rintro rfl
      exact (List.nodup_cons.1 hnd).1 hy
    · exact ih (List.nodup_cons.1 hnd).2 p hp

theorem noSelfLoops_processEpisode {g : Graph} {ep : Episode}
    (hnd : (conceptNames ep).Nodup) (h : noSelfLoops g) :
    noSelfLoops (processEpisode g ep) := by
  unfold processEpisode
  apply foldl_preserve noSelfLoops _ _
    (fun b a ha hb => noSelfLoops_addEdgePair _ (allPairs_ne_of_nodup _ hnd a ha) hb)
  intro e he
  rw [foldl_addNodeMention_edges] at he
  exact h e he

theorem simpleEdges_processEpisode {g : Graph} (ep : Episode)
    (h : simpleEdges g) : simpleEdges (processEpisode g ep) := by
  unfold processEpisode
  apply foldl_preserve simpleEdges _ _ (fun b a _ hb => simpleEdges_addEdgePair a _ hb)
  exact simpleEdges_congr_edges (foldl_addNodeMention_edges _ _ _).symm h

/-- C2 (amended): every built graph is free of multi-edges (repeated
co-occurrence only updates the one stored edge), and it is free of
self-loops provided no episode's concept list repeats a name; a repeated
name inside one episode does create a self-loop. -/
theorem built_graph_simple_and_loopfree_without_duplicates (eps : List Episode) :
    simpleEdges (buildConceptGraph eps) ∧
    ((∀ ep ∈ eps, (conceptNames ep).Nodup) → noSelfLoops (buildConceptGraph eps)) := by
  constructor
  · unfold buildConceptGraph
    apply foldl_preserve simpleEdges _ _ (fun b a _ hb => simpleEdges_processEpisode a hb)
    simp [simpleEdges, Graph.emptyGraph]
  · intro hnd
    unfold buildConceptGraph
    apply foldl_preserve noSelfLoops _ _
      (fun b a ha hb => noSelfLoops_processEpisode (hnd a ha) hb)
    intro e he
    simp [Graph.emptyGraph] at he

theorem built_graph_simple_and_loopfree_witness :
    (conceptNames epAB).Nodup ∧
    simpleEdges (buildConceptGraph [epAB]) ∧ noSelfLoops (buildConceptGraph [epAB]) :=
  ⟨by decide, (built_graph_simple_and_loopfree_without_duplicates [epAB]).1,
    (built_graph_simple_and_loopfree_without_duplicates [epAB]).2 (by decide)⟩

/-- C2 (counterexample): an episode whose list repeats a name creates a
self-loop, so the built graph is not always self-loop-free. -/
theorem self_loop_from_duplicate_names :
    hasEdge (buildConceptGraph [epDup]) "A" "A" = true := by decide

/-! ## C3: `map_all_concepts` on the empty graph -/

/-- C3 (amended): on a graph with zero nodes `map_all_concepts` does not
return a zero-valued summary — the `nx.average_clustering` call raises
`ZeroDivisionError`, which propagates out of the query. -/
theorem mapAllConcepts_raises_on_empty_graph (m : ConceptMapper)
    (h : m.graph.nodes.length = 0) :
    mapAllConcepts m = .error zeroDivisionMsg := by
  simp only [mapAllConcepts, averageClustering]
  rw [if_pos h]

theorem mapAllConcepts_raises_on_empty_graph_witness :
    (ConceptMapper.init []).graph.nodes.length = 0 ∧
    mapAllConcepts (ConceptMapper.init []) = .error zeroDivisionMsg :=
  ⟨rfl, mapAllConcepts_raises_on_empty_graph (ConceptMapper.init []) rfl⟩

/-- C3 (counterexample): building from no episodes and querying the full
map raises instead of returning an empty summary. -/
theorem mapAllConcepts_empty_graph_errors :
    mapAllConcepts (ConceptMapper.init []) = Except.error zeroDivisionMsg := rfl

/-! ## C5: the reported degree centrality -/

theorem hasNode_iff_mem (g : Graph) (c : String) :
    hasNode g c = true ↔ c ∈ nodeNames g := by
  simp [hasNode, List.contains_iff_exists_mem_beq]

theorem resolveFirst_some_hasNode {g : Graph} {name c : String}
    (h : resolveFirst g name = some c) : hasNode g c = true := by
  unfold resolveFirst at h
  by_cases hn : hasNode g name
  · rw [if_pos hn] at h
    cases h
    exact hn
  · rw [if_neg hn] at h
    exact (hasNode_iff_mem g c).2 (List.mem_of_find?_eq_some h)

theorem mapSingleConcept_ok {m : ConceptMapper} {name : String} {d : ConceptDetail}
    (h : mapSingleConcept m name = .ok d) :
    resolveFirst m.graph name = some d.concept ∧
    d.centrality_score = degreeCentralityOf m.graph d.concept := by
  unfold mapSingleConcept at h
  cases hr : resolveFirst m.graph name with
  | none => rw [hr] at h; cases h
  | some c =>
    rw [hr] at h
    simp only [SingleResult.ok.injEq] at h
    subst h
    exact ⟨rfl, rfl⟩

/-- C5 (amended): the degree centrality reported for a resolved concept is
the networkx value: `1` when the graph has at most one node (not `0`), and
otherwise `d / (|V| - 1)` where `d` counts the node's neighbours plus one
more when the node carries a self-loop; every score in `map_all_concepts`'
top-by-centrality list is that same value for its node. -/
theorem reported_degree_centrality (m : ConceptMapper) :
    (∀ name d, mapSingleConcept m name = .ok d →
      d.centrality_score =
        (if m.graph.nodes.length ≤ 1 then 1
         else (((neighbors m.graph d.concept).length : ℚ)
             + (if hasEdge m.graph d.concept d.concept then (1 : ℚ) else 0))
           / ((m.graph.nodes.length : ℚ) - 1))) ∧
    (∀ s, mapAllConcepts m = .ok s →
      ∀ pr ∈ s.top_concepts_by_centrality, pr.2 = degreeCentralityOf m.graph pr.1) := by
  constructor
  · intro name d h
    obtain ⟨hres, hcent⟩ := mapSingleConcept_ok h
    rw [hcent]
    unfold degreeCentralityOf
    rw [if_pos (resolveFirst_some_hasNode hres)]
    by_cases hle : m.graph.nodes.length ≤ 1
    · rw [if_pos hle, if_pos hle]
    · rw [if_neg hle, if_neg hle]
      unfold nxDegree
      by_cases hsl : hasEdge m.graph d.concept d.concept
      · rw [if_pos hsl, if_pos hsl]
        push_cast
        ring_nf
      · rw [if_neg hsl, if_neg hsl]
        push_cast
        ring_nf
  · intro s hs pr hpr
    simp only [mapAllConcepts] at hs
    cases hav : averageClustering m.graph with
    | error e =>
      rw [hav] at hs
      exact Except.noConfusion hs
    | ok avgc =>
      rw [hav] at hs
      simp only [Except.ok.injEq] at hs
      subst hs
      have h1 : pr ∈ sortBy (fun x y : String × ℚ => decide (y.2 ≤ x.2))
          ((nodeNames m.graph).map fun c => (c, degreeCentralityOf m.graph c)) :=
        List.Sublist.mem hpr (List.take_sublist 20 _)
      have h2 : pr ∈ (nodeNames m.graph).map fun c => (c, degreeCentralityOf m.graph c) :=
        (sortBy_perm _ _).mem_iff.1 h1
      obtain ⟨c, _, rfl⟩ := List.mem_map.1 h2
      rfl

/-- C5 (counterexample): on a one-node graph the reported centrality is
`1`, not `0` as claimed. -/
theorem degree_centrality_one_on_singleton :
    (ConceptMapper.init [epA]).graph.nodes.length = 1 ∧
    centralityOf (mapSingleConcept (ConceptMapper.init [epA]) "A") = some 1 ∧
    some (1 : ℚ) ≠ some (0 : ℚ) := by decide

theorem reported_degree_centrality_witness :
    mapSingleConcept (ConceptMapper.init [epA]) "A"
        = .ok ⟨"A", 1, [⟨"E1", "t", "", ""⟩], [], 1, 0⟩ ∧
    (⟨"A", 1, [⟨"E1", "t", "", ""⟩], [], 1, 0⟩ : ConceptDetail).centrality_score
        = (if (ConceptMapper.init [epA]).graph.nodes.length ≤ 1 then 1
           else (((neighbors (ConceptMapper.init [epA]).graph
                (⟨"A", 1, [⟨"E1", "t", "", ""⟩], [], 1, 0⟩ : ConceptDetail).concept).length : ℚ)
               + (if hasEdge (ConceptMapper.init [epA]).graph
                    (⟨"A", 1, [⟨"E1", "t", "", ""⟩], [], 1, 0⟩ : ConceptDetail).concept
                    (⟨"A", 1, [⟨"E1", "t", "", ""⟩], [], 1, 0⟩ : ConceptDetail).concept
                  then (1 : ℚ) else 0))
             / (((ConceptMapper.init [epA]).graph.nodes.length : ℚ) - 1)) :=
  ⟨by decide,
    (reported_degree_centrality (ConceptMapper.init [epA])).1 "A" _ (by decide)⟩

/-! ## C6: name resolution in find_concept_path vs map_single_concept -/

theorem find?_eq_head_filter {α : Type} (p : α → Bool) :
    ∀ l : List α, l.find? p = (l.filter p).head? := by
  intro l
  induction l with
  | nil => rfl
  | cons x xs ih =>
    cases hx : p x
    · simp only [List.find?, hx, List.filter_cons, if_neg (by simp [hx] : ¬p x = true)]
      exact ih
    · simp only [List.find?, hx, List.filter_cons, if_pos hx, if_true, List.head?_cons]

theorem eq_singleton_of_mem_len_le {α : Type} {l : List α} {a : α}
    (h : a ∈ l) (hl : l.length ≤ 1) : l = [a] := by
  cases l with
  | nil => cases h
  | cons x xs =>
    cases xs with
    | nil => simp only [List.mem_singleton] at h; rw [h]
    | cons y ys => simp at hl

theorem resolveLast_eq_getLast_filter (g : Graph) (name : String) :
    resolveLast g name
      = ((nodeNames g).filter fun n => strLower n = strLower name).getLast? := by
  suffices h : ∀ (l : List String) (acc : Option String),
      l.foldl (fun acc node => if strLower node = strLower name then some node else acc) acc
        = ((l.filter fun n => strLower n = strLower name).getLast?).or acc by
    have h2 := h (nodeNames g) none
    simpa [resolveLast] using h2
  intro l
  induction l with
  | nil => intro acc; simp
  | cons x xs ih =>
    intro acc
    by_cases hx : strLower x = strLower name
    · have hd : (decide (strLower x = strLower name)) = true := decide_eq_true hx
      simp only [List.foldl_cons, if_pos hx, List.filter_cons, hd, if_pos]
      rw [ih]
      cases hxs : (xs.filter fun n => strLower n = strLower name) with
      | nil => simp
      | cons y ys =>
        cases hgl : (y :: ys).getLast? with
        | none => simp [List.getLast?_eq_none_iff] at hgl
        | some z => simp [List.getLast?_cons_cons, hgl]
    · have hd : (decide (strLower x = strLower name)) = false :=
        decide_eq_false hx
      simp only [List.foldl_cons, if_neg hx, List.filter_cons, hd,
        if_neg (by simp : ¬false = true)]
      exact ih acc

/-- C6 (amended): `find_concept_path` keeps the *last* case-insensitive
match in node order (exact matches get no precedence), which agrees with
`map_single_concept`'s resolution (exact match, then first
case-insensitive match) whenever at most one node matches the queried name
case-insensitively; `map_single_concept` resolves to the concept it
reports; and an unresolved argument makes `find_concept_path` return the
not-found error. -/
theorem findConceptPath_resolution (m : ConceptMapper) (name b : String) :
    ((nodeNames m.graph).countP (fun n => strLower n = strLower name) ≤ 1 →
      resolveLast m.graph name = resolveFirst m.graph name) ∧
    (∀ d, mapSingleConcept m name = .ok d →
      resolveFirst m.graph name = some d.concept) ∧
    (resolveLast m.graph name = none → findConceptPath m name b = .notFound) ∧
    (resolveLast m.graph b = none → findConceptPath m name b = .notFound) := by
  refine ⟨?_, ?_, ?_, ?_⟩
  · intro hcount
    rw [List.countP_eq_length_filter] at hcount
    rw [resolveLast_eq_getLast_filter]
    cases hn : hasNode m.graph name with
    | true =>
      have hmem : name ∈ (nodeNames m.graph).filter fun n => strLower n = strLower name :=
        List.mem_filter.2 ⟨(hasNode_iff_mem _ _).1 hn, by simp⟩
      rw [eq_singleton_of_mem_len_le hmem hcount]
      unfold resolveFirst
      rw [if_pos hn]
      rfl
    | false =>
      unfold resolveFirst
      rw [if_neg (by simp [hn]), find?_eq_head_filter]
      cases hf : (nodeNames m.graph).filter fun n => strLower n = strLower name with
      | nil => rfl
      | cons y ys =>
        rw [hf] at hcount
        cases ys with
        | nil => rfl
        | cons z zs => simp at hcount
  · intro d h
    exact (mapSingleConcept_ok h).1
  · intro h
    unfold findConceptPath
    rw [h]
  · intro h
    unfold findConceptPath
    rw [h]
    cases resolveLast m.graph name <;> rfl

theorem findConceptPath_resolution_witness :
    ((nodeNames (ConceptMapper.init [epSto]).graph).countP
        (fun n => strLower n = strLower "STOICISM") ≤ 1) ∧
    resolveLast (ConceptMapper.init [epSto]).graph "STOICISM"
      = resolveFirst (ConceptMapper.init [epSto]).graph "STOICISM" :=
  ⟨by decide,
    (findConceptPath_resolution (ConceptMapper.init [epSto]) "STOICISM" "x").1 (by decide)⟩

/-- C6 (counterexample): with the two case-variant nodes `Stoicism` (older)
and `stoicism` (newer), `map_single_concept "Stoicism"` resolves to the
exact match `Stoicism`, while `find_concept_path` resolves the same
argument to `stoicism` (last case-insensitive match, no exact-match
precedence) — the two queries do not resolve to the same node. -/
theorem findConceptPath_resolves_differently :
    resolvedOf (mapSingleConcept mSto "Stoicism") = some "Stoicism" ∧
    findConceptPath mSto "Stoicism" "Stoicism"
      = .found "stoicism" "stoicism" ["stoicism"] 0 [] ∧
    ("stoicism" : String) ≠ "Stoicism" := by decide

/-! ## Well-formedness invariants of built graphs -/

theorem nodeNames_addNodeMention (g : Graph) (x ep : String) :
    nodeNames (addNodeMention g x ep)
      = if hasNode g x then nodeNames g else nodeNames g ++ [x] := by
  have hkey : (Prod.fst ∘ bumpNode x ep) = (Prod.fst : String × NodeData → String) :=
    funext (bumpNode_key x ep)
  cases hn : hasNode g x
  · rw [addNodeMention_of_not_hasNode ep hn, if_neg (by simp [hn])]
    simp only [nodeNames, List.map_map, hkey, List.map_append]
    rfl
  · rw [addNodeMention_of_hasNode ep hn, if_pos rfl]
    simp only [nodeNames, List.map_map, hkey]

theorem mem_nodeNames_addNodeMention_self (g : Graph) (x ep : String) :
    x ∈ nodeNames (addNodeMention g x ep) := by
  rw [nodeNames_addNodeMention]
  split
  · next hn => exact (hasNode_iff_mem g x).1 hn
  · exact List.mem_append_right _ (List.mem_singleton_self x)

theorem mem_nodeNames_addNodeMention_of_mem {g : Graph} {c : String} (x ep : String)
    (h : c ∈ nodeNames g) : c ∈ nodeNames (addNodeMention g x ep) := by
  rw [nodeNames_addNodeMention]
  split
  · exact h
  · exact List.mem_append_left _ h

theorem mem_nodeNames_foldl_addNodeMention (ep : String) :
    ∀ (names : List String) (g : Graph) (c : String),
      c ∈ names ∨ c ∈ nodeNames g →
      c ∈ nodeNames (names.foldl (fun h x => addNodeMention h x ep) g) := by
  intro names
  induction names with
  | nil =>
    intro g c hc
    simpa using hc.resolve_left (by simp)
  | cons x xs ih =>
    intro g c hc
    simp only [List.foldl_cons]
    rcases hc with hc | hc
    · rcases List.mem_cons.1 hc with rfl | hc
      · exact ih _ _ (Or.inr (mem_nodeNames_addNodeMention_self g c ep))
      · exact ih _ _ (Or.inl hc)
    · exact ih _ _ (Or.inr (mem_nodeNames_addNodeMention_of_mem x ep hc))

theorem allPairs_mem :
    ∀ (l : List String) (p : String × String), p ∈ allPairs l → p.1 ∈ l ∧ p.2 ∈ l := by
  intro l
  induction l with
  | nil => intro p hp; simp [allPairs] at hp
  | cons x xs ih =>
    intro p hp
    simp only [allPairs, List.mem_append] at hp
    rcases hp with hp | hp
    · obtain ⟨y, hy, rfl⟩ := List.mem_map.1 hp
      exact ⟨List.mem_cons_self _ _, List.mem_cons_of_mem _ hy⟩
    · obtain ⟨h1, h2⟩ := ih p hp
      exact ⟨List.mem_cons_of_mem _ h1, List.mem_cons_of_mem _ h2⟩

theorem nodeNames_addEdgePair (g : Graph) (p : String × String) (ep : String) :
    nodeNames (addEdgePair g p ep) = nodeNames g := by
  simp only [nodeNames, addEdgePair_nodes]

theorem edgeClosed_addNodeMention {g : Graph} (x ep : String) (h : edgeClosed g) :
    edgeClosed (addNodeMention g x ep) := by
  intro e he
  rw [addNodeMention_edges] at he
  obtain ⟨h1, h2⟩ := h e he
  exact ⟨mem_nodeNames_addNodeMention_of_mem x ep h1,
         mem_nodeNames_addNodeMention_of_mem x ep h2⟩

theorem edgeClosed_addEdgePair {g : Graph} {p : String × String} (ep : String)
    (hp1 : p.1 ∈ nodeNames g) (hp2 : p.2 ∈ nodeNames g) (h : edgeClosed g) :
    edgeClosed (addEdgePair g p ep) := by
  intro e he
  rw [nodeNames_addEdgePair]
  cases hed : hasEdge g p.1 p.2
  · rw [addEdgePair_of_not_hasEdge ep hed] at he
    rcases List.mem_append.1 he with h1 | h1
    · exact h e h1
    · simp only [List.mem_singleton] at h1
      subst h1
      exact ⟨hp1, hp2⟩
  · rw [addEdgePair_of_hasEdge ep hed] at he
    obtain ⟨e0, he0, rfl⟩ := List.mem_map.1 he
    rw [bumpEdge_fst, bumpEdge_snd]
    exact h e0 he0

theorem edgeClosed_processEpisode {g : Graph} (ep : Episode) (h : edgeClosed g) :
    edgeClosed (processEpisode g ep) := by
  unfold processEpisode
  have hg1 : edgeClosed ((conceptNames ep).foldl
      (fun h c => addNodeMention h c ep.episode_id) g) :=
    foldl_preserve edgeClosed _ _ (fun b a _ hb => edgeClosed_addNodeMention a _ hb) g h
  have hmem : ∀ c ∈ conceptNames ep,
      c ∈ nodeNames ((conceptNames ep).foldl
        (fun h c => addNodeMention h c ep.episode_id) g) :=
    fun c hc => mem_nodeNames_foldl_addNodeMention _ _ _ _ (Or.inl hc)
  refine (foldl_preserve
    (fun h' => edgeClosed h' ∧ nodeNames h' = nodeNames ((conceptNames ep).foldl
      (fun h c => addNodeMention h c ep.episode_id) g)) _ _ ?_ _ ⟨hg1, rfl⟩).1
  intro b a ha hb
  obtain ⟨ha1, ha2⟩ := allPairs_mem _ a ha
  constructor
  · exact edgeClosed_addEdgePair _ (hb.2 ▸ hmem _ ha1) (hb.2 ▸ hmem _ ha2) hb.1
  · rw [nodeNames_addEdgePair]
    exact hb.2

theorem edgeClosed_build (eps : List Episode) : edgeClosed (buildConceptGraph eps) := by
  unfold buildConceptGraph
  apply foldl_preserve edgeClosed _ _ (fun b a _ hb => edgeClosed_processEpisode a hb)
  intro e he
  simp [Graph.emptyGraph] at he

theorem nodup_nodeNames_addNodeMention {g : Graph} (x ep : String)
    (h : (nodeNames g).Nodup) : (nodeNames (addNodeMention g x ep)).Nodup := by
  rw [nodeNames_addNodeMention]
  split
  · exact h
  · next hn =>
    rw [List.nodup_append]
    refine ⟨h, List.nodup_singleton x, ?_⟩
    intro a ha hax
    simp only [List.mem_singleton] at hax
    subst hax
    exact hn ((hasNode_iff_mem g a).2 ha)

theorem nodup_nodeNames_processEpisode {g : Graph} (ep : Episode)
    (h : (nodeNames g).Nodup) : (nodeNames (processEpisode g ep)).Nodup := by
  unfold processEpisode
  refine (foldl_preserve (fun h' => (nodeNames h').Nodup) _ _
    (fun b a _ hb => ?_) _ ?_)
  · show (nodeNames (addEdgePair b a ep.episode_id)).Nodup
    rwa [nodeNames_addEdgePair]
  · exact foldl_preserve (fun h' => (nodeNames h').Nodup) _ _
      (fun b a _ hb => nodup_nodeNames_addNodeMention a _ hb) g h

theorem nodup_nodeNames_build (eps : List Episode) :
    (nodeNames (buildConceptGraph eps)).Nodup := by
  unfold buildConceptGraph
  apply foldl_preserve (fun h' => (nodeNames h').Nodup) _ _
    (fun b a _ hb => nodup_nodeNames_processEpisode a hb)
  simp [nodeNames, Graph.emptyGraph]

theorem conceptNames_ne_empty (ep : Episode) : ∀ c ∈ conceptNames ep, c ≠ "" := by
  intro c hc
  unfold conceptNames at hc
  obtain ⟨oe, hoe, hmap⟩ := List.mem_filterMap.1 hc
  cases oe with
  | none => simp at hmap
  | some e =>
    by_cases he : e.concept = ""
    · simp [he] at hmap
    · simp only [if_neg he] at hmap
      cases hmap
      exact he

theorem names_ne_empty_addNodeMention {g : Graph} {x : String} (ep : String)
    (hx : x ≠ "") (h : ∀ c ∈ nodeNames g, c ≠ "") :
    ∀ c ∈ nodeNames (addNodeMention g x ep), c ≠ "" := by
  rw [nodeNames_addNodeMention]
  split
  · exact h
  · intro c hc
    rcases List.mem_append.1 hc with h1 | h1
    · exact h c h1
    · simp only [List.mem_singleton] at h1
      subst h1
      exact hx

theorem names_ne_empty_processEpisode {g : Graph} (ep : Episode)
    (h : ∀ c ∈ nodeNames g, c ≠ "") :
    ∀ c ∈ nodeNames (processEpisode g ep), c ≠ "" := by
  unfold processEpisode
  refine foldl_preserve (fun h' => ∀ c ∈ nodeNames h', c ≠ "") _ _
    (fun b a _ hb => ?_) _ ?_
  · show ∀ c ∈ nodeNames (addEdgePair b a ep.episode_id), c ≠ ""
    rwa [nodeNames_addEdgePair]
  · exact foldl_preserve (fun h' => ∀ c ∈ nodeNames h', c ≠ "") _ _
      (fun b a ha hb => names_ne_empty_addNodeMention _ (conceptNames_ne_empty ep a ha) hb)
      g h

theorem names_ne_empty_build (eps : List Episode) :
    ∀ c ∈ nodeNames (buildConceptGraph eps), c ≠ "" := by
  unfold buildConceptGraph
  apply foldl_preserve (fun h' => ∀ c ∈ nodeNames h', c ≠ "") _ _
    (fun b a _ hb => names_ne_empty_processEpisode a hb)
  intro c hc
  simp [nodeNames, Graph.emptyGraph] at hc

theorem built_wellFormed (eps : List Episode) : wellFormed (buildConceptGraph eps) :=
  ⟨nodup_nodeNames_build eps, names_ne_empty_build eps, edgeClosed_build eps⟩

/-! ## C7: symmetry of edges and related-concept lists -/

theorem hasEdge_symm (g : Graph) (a b : String) : hasEdge g a b = hasEdge g b a := by
  unfold hasEdge
  congr 1
  funext e
  rw [sameEdge_symm_pair]

theorem weightOf_symm (g : Graph) (a b : String) : weightOf g a b = weightOf g b a := by
  unfold weightOf edgeEntry
  have hp : (fun e : String × String × EdgeData => sameEdge a b e.1 e.2.1)
      = fun e : String × String × EdgeData => sameEdge b a e.1 e.2.1 :=
    funext fun e => sameEdge_symm_pair a b e.1 e.2.1
  rw [hp]

theorem mem_neighbors_of_hasEdge {g : Graph} {a b : String}
    (h : hasEdge g a b = true) : b ∈ neighbors g a := by
  obtain ⟨e, he, hse⟩ := List.any_eq_true.1 h
  simp only [sameEdge, decide_eq_true_eq] at hse
  unfold neighbors
  apply List.mem_filterMap.2
  refine ⟨e, he, ?_⟩
  rcases hse with ⟨h1, h2⟩ | ⟨h1, h2⟩
  · rw [if_pos h1.symm, h2]
  · by_cases hq : e.1 = a
    · rw [if_pos hq, h2, hq, h1]
    · rw [if_neg hq, if_pos h1.symm, h2]

theorem hasEdge_endpoints {g : Graph} {a b : String} (h : hasEdge g a b = true)
    (hec : edgeClosed g) : a ∈ nodeNames g ∧ b ∈ nodeNames g := by
  obtain ⟨e, he, hse⟩ := List.any_eq_true.1 h
  simp only [sameEdge, decide_eq_true_eq] at hse
  obtain ⟨he1, he2⟩ := hec e he
  rcases hse with ⟨h1, h2⟩ | ⟨h1, h2⟩
  · exact ⟨h1 ▸ he1, h2 ▸ he2⟩
  · exact ⟨h1 ▸ he2, h2 ▸ he1⟩

theorem resolveFirst_exact {g : Graph} {a : String} (ha : hasNode g a = true) :
    resolveFirst g a = some a := by
  unfold resolveFirst
  rw [if_pos ha]

theorem related_contains {m : ConceptMapper} {a b : String}
    (hres : resolveFirst m.graph a = some a) (hb : b ∈ neighbors m.graph a)
    (hlen : (neighbors m.graph a).length ≤ 10) :
    ∃ d, mapSingleConcept m a = .ok d ∧
      b ∈ d.related_concepts.map RelatedConcept.concept := by
  have hmap : mapSingleConcept m a
      = .ok ⟨a, countOf m.graph a,
             episodeDetails m.episodes a (episodeIdsOf m.graph a),
             (sortBy (fun x y => decide (y.strength ≤ x.strength))
               ((neighbors m.graph a).map fun nb =>
                 (⟨nb, weightOf m.graph a nb, edgeEpisodesOf m.graph a nb⟩ :
                   RelatedConcept))).take 10,
             degreeCentralityOf m.graph a, clusteringCoeff m.graph a⟩ := by
    unfold mapSingleConcept
    rw [hres]
  refine ⟨_, hmap, ?_⟩
  have h1 : (⟨b, weightOf m.graph a b, edgeEpisodesOf m.graph a b⟩ : RelatedConcept)
      ∈ (neighbors m.graph a).map fun nb =>
        (⟨nb, weightOf m.graph a nb, edgeEpisodesOf m.graph a nb⟩ : RelatedConcept) :=
    List.mem_map_of_mem _ hb
  have h2 : (⟨b, weightOf m.graph a b, edgeEpisodesOf m.graph a b⟩ : RelatedConcept)
      ∈ sortBy (fun x y => decide (y.strength ≤ x.strength))
        ((neighbors m.graph a).map fun nb =>
          (⟨nb, weightOf m.graph a nb, edgeEpisodesOf m.graph a nb⟩ : RelatedConcept)) :=
    (sortBy_perm _ _).mem_iff.2 h1
  have hlen2 : (sortBy (fun x y => decide (y.strength ≤ x.strength))
      ((neighbors m.graph a).map fun nb =>
        (⟨nb, weightOf m.graph a nb, edgeEpisodesOf m.graph a nb⟩ :
          RelatedConcept))).length ≤ 10 := by
    rw [(sortBy_perm _ _).length_eq, List.length_map]
    exact hlen
  show b ∈ List.map RelatedConcept.concept (List.take 10 _)
  rw [List.take_of_length_le hlen2]
  exact List.mem_map.2 ⟨_, h2, rfl⟩

/-- C7 (amended): for every edge of a built graph the weight read from
either direction is the same; and each endpoint appears in the other's
reported related-concepts list provided that other endpoint has at most
ten neighbours (the list is truncated to the ten strongest relations). -/
theorem edge_symmetry (eps : List Episode) (a b : String)
    (hedge : hasEdge (ConceptMapper.init eps).graph a b = true) :
    weightOf (ConceptMapper.init eps).graph a b
        = weightOf (ConceptMapper.init eps).graph b a ∧
    ((neighbors (ConceptMapper.init eps).graph a).length ≤ 10 →
      ∃ d, mapSingleConcept (ConceptMapper.init eps) a = .ok d ∧
        b ∈ d.related_concepts.map RelatedConcept.concept) ∧
    ((neighbors (ConceptMapper.init eps).graph b).length ≤ 10 →
      ∃ d, mapSingleConcept (ConceptMapper.init eps) b = .ok d ∧
        a ∈ d.related_concepts.map RelatedConcept.concept) := by
  have hec : edgeClosed (ConceptMapper.init eps).graph := edgeClosed_build eps
  obtain ⟨hma, hmb⟩ := hasEdge_endpoints hedge hec
  have hedge2 : hasEdge (ConceptMapper.init eps).graph b a = true := by
    rw [← hasEdge_symm]
    exact hedge
  refine ⟨weightOf_symm _ a b, ?_, ?_⟩
  · intro hlen
    exact related_contains (resolveFirst_exact ((hasNode_iff_mem _ _).2 hma))
      (mem_neighbors_of_hasEdge hedge) hlen
  · intro hlen
    exact related_contains (resolveFirst_exact ((hasNode_iff_mem _ _).2 hmb))
      (mem_neighbors_of_hasEdge hedge2) hlen

theorem edge_symmetry_witness :
    hasEdge (ConceptMapper.init [epAB]).graph "A" "B" = true ∧
    (weightOf (ConceptMapper.init [epAB]).graph "A" "B"
        = weightOf (ConceptMapper.init [epAB]).graph "B" "A" ∧
    ((neighbors (ConceptMapper.init [epAB]).graph "A").length ≤ 10 →
      ∃ d, mapSingleConcept (ConceptMapper.init [epAB]) "A" = .ok d ∧
        "B" ∈ d.related_concepts.map RelatedConcept.concept) ∧
    ((neighbors (ConceptMapper.init [epAB]).graph "B").length ≤ 10 →
      ∃ d, mapSingleConcept (ConceptMapper.init [epAB]) "B" = .ok d ∧
        "A" ∈ d.related_concepts.map RelatedConcept.concept)) :=
  ⟨by decide, edge_symmetry [epAB] "A" "B" (by decide)⟩

/-- C7 (counterexample): `A` and `B10` are joined by an edge, and `A`
appears in `B10`'s related list, but `B10` does not appear in `A`'s
related list — `map_single_concept` truncates to the ten strongest
relations, so mutual membership fails for a node with eleven neighbours. -/
theorem related_list_truncated_breaks_symmetry :
    hasEdge mBig.graph "A" "B10" = true ∧
    isOkSingle (mapSingleConcept mBig "A") = true ∧
    "B10" ∉ relatedNamesOf (mapSingleConcept mBig "A") ∧
    "A" ∈ relatedNamesOf (mapSingleConcept mBig "B10") := by decide

/-! ## Reachability balls, components and the cluster query (C4) -/

theorem ball_zero_mem (g : Graph) (s : String) : ∀ n, s ∈ ball g s n := by
  intro n
  induction n with
  | zero => simp [ball]
  | succ n ih => simp only [ball]; exact List.mem_append_left _ ih

theorem ball_mono {g : Graph} {s : String} {n : Nat} :
    ∀ x ∈ ball g s n, x ∈ ball g s (n + 1) := by
  intro x hx
  simp only [ball]
  exact List.mem_append_left _ hx

theorem ball_le {g : Graph} {s : String} {m n : Nat} (h : m ≤ n) :
    ∀ x ∈ ball g s m, x ∈ ball g s n := by
  induction n with
  | zero =>
    intro x hx
    rw [Nat.le_zero.1 h] at hx
    exact hx
  | succ n ih =>
    rcases Nat.lt_or_ge m (n + 1) with hlt | hge
    · intro x hx
      exact ball_mono x (ih (Nat.lt_succ_iff.1 hlt) x hx)
    · have : m = n + 1 := Nat.le_antisymm h hge
      rw [this]
      exact fun x hx => hx

theorem mem_neighbors_endpoint {g : Graph} {v x : String}
    (h : x ∈ neighbors g v) (hec : edgeClosed g) : x ∈ nodeNames g := by
  unfold neighbors at h
  obtain ⟨e, he, hnf⟩ := List.mem_filterMap.1 h
  obtain ⟨h1, h2⟩ := hec e he
  by_cases hq : e.1 = v
  · rw [if_pos hq] at hnf
    cases hnf
    exact h2
  · rw [if_neg hq] at hnf
    by_cases hq2 : e.2.1 = v
    · rw [if_pos hq2] at hnf
      cases hnf
      exact h1
    · rw [if_neg hq2] at hnf
      cases hnf

theorem ball_subset_nodes {g : Graph} {s : String} (hs : s ∈ nodeNames g)
    (hec : edgeClosed g) : ∀ n, ∀ x ∈ ball g s n, x ∈ nodeNames g := by
  intro n
  induction n with
  | zero =>
    intro x hx
    simp only [ball, List.mem_singleton] at hx
    rw [hx]
    exact hs
  | succ n ih =>
    intro x hx
    simp only [ball, List.mem_append] at hx
    rcases hx with hx | hx
    · exact ih x hx
    · obtain ⟨v, _, hxv⟩ := List.mem_flatMap.1 hx
      exact mem_neighbors_endpoint hxv hec

theorem mem_reachList_self (g : Graph) (s : String) : s ∈ reachList g s := by
  unfold reachList
  exact List.mem_dedup.2 (ball_zero_mem g s _)

theorem reachList_subset_nodes {g : Graph} {s : String} (hs : s ∈ nodeNames g)
    (hec : edgeClosed g) : ∀ x ∈ reachList g s, x ∈ nodeNames g := by
  intro x hx
  unfold reachList at hx
  exact ball_subset_nodes hs hec _ x (List.mem_dedup.1 hx)

theorem componentsAux_sub (g : Graph) :
    ∀ (l seen : List String) (comp : List String), comp ∈ componentsAux g l seen →
      ∃ v ∈ l, comp = reachList g v := by
  intro l
  induction l with
  | nil => intro seen comp h; simp [componentsAux] at h
  | cons v rest ih =>
    intro seen comp h
    simp only [componentsAux] at h
    by_cases hv : seen.contains v
    · rw [if_pos hv] at h
      obtain ⟨w, hw, hcomp⟩ := ih _ _ h
      exact ⟨w, List.mem_cons_of_mem _ hw, hcomp⟩
    · rw [if_neg hv] at h
      rcases List.mem_cons.1 h with rfl | h
      · exact ⟨v, List.mem_cons_self _ _, rfl⟩
      · obtain ⟨w, hw, hcomp⟩ := ih _ _ h
        exact ⟨w, List.mem_cons_of_mem _ hw, hcomp⟩

theorem components_sub (g : Graph) :
    ∀ comp ∈ components g, ∃ v ∈ nodeNames g, comp = reachList g v :=
  fun comp h => componentsAux_sub g _ _ comp h

theorem mem_nodeNames_subgraph {g : Graph} {comp : List String} {v : String} :
    v ∈ nodeNames (subgraphOn g comp) ↔ v ∈ nodeNames g ∧ comp.contains v = true := by
  unfold subgraphOn nodeNames
  constructor
  · intro h
    obtain ⟨p, hp, rfl⟩ := List.mem_map.1 h
    obtain ⟨hp1, hp2⟩ := List.mem_filter.1 hp
    exact ⟨List.mem_map_of_mem _ hp1, hp2⟩
  · rintro ⟨h1, h2⟩
    obtain ⟨p, hp, rfl⟩ := List.mem_map.1 h1
    exact List.mem_map_of_mem _ (List.mem_filter.2 ⟨hp, h2⟩)

theorem argmaxFirst_aux :
    ∀ (l : List (String × ℚ)) (acc : Option (String × ℚ)),
      (l.foldl argmaxStep acc = none → acc = none) ∧
      (∀ p, l.foldl argmaxStep acc = some p →
        (p ∈ l ∨ acc = some p) ∧ (∀ q ∈ l, q.2 ≤ p.2) ∧
        (∀ a, acc = some a → a.2 ≤ p.2)) := by
  intro l
  induction l with
  | nil =>
    intro acc
    refine ⟨fun h => h, fun p hp => ⟨Or.inr hp, by simp, fun a ha => ?_⟩⟩
    simp only [List.foldl_nil] at hp
    rw [hp] at ha
    cases ha
    exact le_refl _
  | cons x xs ih =>
    intro acc
    simp only [List.foldl_cons]
    have hprops : ∃ r, argmaxStep acc x = some r ∧ (r = x ∨ acc = some r) ∧
        x.2 ≤ r.2 ∧ (∀ a, acc = some a → a.2 ≤ r.2) := by
      cases acc with
      | none =>
        exact ⟨x, rfl, Or.inl rfl, le_refl _, fun a ha => by cases ha⟩
      | some q =>
        by_cases hlt : q.2 < x.2
        · refine ⟨x, ?_, Or.inl rfl, le_refl _, fun a ha => ?_⟩
          · show (if q.2 < x.2 then some x else some q) = some x
            rw [if_pos hlt]
          · cases ha
            exact le_of_lt hlt
        · refine ⟨q, ?_, Or.inr rfl, le_of_not_lt hlt, fun a ha => ?_⟩
          · show (if q.2 < x.2 then some x else some q) = some q
            rw [if_neg hlt]
          · cases ha
            exact le_refl _
    obtain ⟨r, hr, hrmem, hrx, hracc⟩ := hprops
    rw [hr]
    constructor
    · intro h
      exact absurd ((ih (some r)).1 h) (by simp)
    · intro p hp
      obtain ⟨hmem, hmax, hacc⟩ := (ih (some r)).2 p hp
      have hrp : r.2 ≤ p.2 := hacc r rfl
      refine ⟨?_, ?_, ?_⟩
      · rcases hmem with h | h
        · exact Or.inl (List.mem_cons_of_mem _ h)
        · injection h with h
          subst h
          rcases hrmem with h2 | h2
          · exact Or.inl (h2 ▸ List.mem_cons_self x xs)
          · exact Or.inr h2
      · intro q hq
        rcases List.mem_cons.1 hq with rfl | hq2
        · exact le_trans hrx hrp
        · exact hmax q hq2
      · intro a ha
        exact le_trans (hracc a ha) hrp

theorem argmaxFirst_isSome {l : List (String × ℚ)} (h : l ≠ []) :
    argmaxFirst l ≠ none := by
  cases l with
  | nil => exact absurd rfl h
  | cons x xs =>
    intro hc
    unfold argmaxFirst at hc
    rw [List.foldl_cons] at hc
    have := (argmaxFirst_aux xs (argmaxStep none x)).1 hc
    simp [argmaxStep] at this

theorem argmaxFirst_mem_max {l : List (String × ℚ)} {p : String × ℚ}
    (h : argmaxFirst l = some p) : p ∈ l ∧ ∀ q ∈ l, q.2 ≤ p.2 := by
  obtain ⟨hmem, hmax, -⟩ := (argmaxFirst_aux l none).2 p h
  rcases hmem with hmem | hmem
  · exact ⟨hmem, hmax⟩
  · cases hmem

theorem contains_iff_mem_str (l : List String) (a : String) :
    l.contains a = true ↔ a ∈ l := by
  simp [List.contains_iff_exists_mem_beq]

theorem clusterOf_spec {g : Graph} {comp : List String}
    (hsub : ∀ v ∈ comp, v ∈ nodeNames g) (hne : comp ≠ []) :
    (clusterOf g comp).size = comp.length ∧
    (clusterOf g comp).concepts = comp ∧
    (clusterOf g comp).central_concept ∈ comp ∧
    (∀ v ∈ comp, degreeCentralityOf (subgraphOn g comp) v
        ≤ degreeCentralityOf (subgraphOn g comp) (clusterOf g comp).central_concept) ∧
    (clusterOf g comp).density = nxDensity (subgraphOn g comp) := by
  obtain ⟨v0, hv0⟩ := List.exists_mem_of_ne_nil comp hne
  have hmemsub : ∀ v ∈ comp, v ∈ nodeNames (subgraphOn g comp) := fun v hv =>
    mem_nodeNames_subgraph.2 ⟨hsub v hv, (contains_iff_mem_str comp v).2 hv⟩
  have hcentsne : ((nodeNames (subgraphOn g comp)).map fun c =>
      (c, degreeCentralityOf (subgraphOn g comp) c)) ≠ [] := by
    intro hc
    have h0 := hmemsub v0 hv0
    rw [List.map_eq_nil_iff] at hc
    rw [hc] at h0
    cases h0
  cases harg : argmaxFirst ((nodeNames (subgraphOn g comp)).map fun c =>
      (c, degreeCentralityOf (subgraphOn g comp) c)) with
  | none => exact absurd harg (argmaxFirst_isSome hcentsne)
  | some p =>
    obtain ⟨hpmem, hpmax⟩ := argmaxFirst_mem_max harg
    obtain ⟨c, hc, hpc⟩ := List.mem_map.1 hpmem
    have hcentral : (clusterOf g comp).central_concept = p.1 := by
      show (match argmaxFirst ((nodeNames (subgraphOn g comp)).map fun c =>
        (c, degreeCentralityOf (subgraphOn g comp) c)) with
        | some p => p.1
        | none => "") = p.1
      rw [harg]
    refine ⟨rfl, rfl, ?_, ?_, rfl⟩
    · rw [hcentral, ← hpc]
      exact (contains_iff_mem_str comp c).1 (mem_nodeNames_subgraph.1 hc).2
    · intro v hv
      have hvc : (v, degreeCentralityOf (subgraphOn g comp) v)
          ∈ (nodeNames (subgraphOn g comp)).map fun c =>
            (c, degreeCentralityOf (subgraphOn g comp) c) :=
        List.mem_map_of_mem _ (hmemsub v hv)
      have hle := hpmax _ hvc
      rw [hcentral, ← hpc]
      rw [← hpc] at hle
      simpa using hle

/-- C4 (amended): the reported clusters are the connected components of
size ≥ 3 — sorted by size descending, at most ten, each annotated with its
member count, members, most degree-central member and internal density —
but only when the graph has at least five nodes; with fewer than five
nodes the cluster list is empty even when a ≥3-node component exists.
`map_all_concepts` reports exactly this list. -/
theorem concept_clusters_characterized (m : ConceptMapper) (hwf : wellFormed m.graph) :
    (m.graph.nodes.length < 5 → findConceptClusters m.graph = []) ∧
    (5 ≤ m.graph.nodes.length →
      (∀ cl ∈ findConceptClusters m.graph,
        cl.concepts ∈ components m.graph ∧ 3 ≤ cl.size ∧
        cl.size = cl.concepts.length ∧
        cl.central_concept ∈ cl.concepts ∧
        (∀ v ∈ cl.concepts,
          degreeCentralityOf (subgraphOn m.graph cl.concepts) v
            ≤ degreeCentralityOf (subgraphOn m.graph cl.concepts) cl.central_concept) ∧
        cl.density = nxDensity (subgraphOn m.graph cl.concepts)) ∧
      (findConceptClusters m.graph).length ≤ 10 ∧
      ((findConceptClusters m.graph).map ClusterInfo.size).Pairwise (· ≥ ·) ∧
      ((∃ comp ∈ components m.graph, 3 ≤ comp.length) →
        findConceptClusters m.graph ≠ []) ∧
      ((components m.graph).countP (fun c => decide (3 ≤ c.length)) ≤ 10 →
        ∀ comp ∈ components m.graph, 3 ≤ comp.length →
          ∃ cl ∈ findConceptClusters m.graph, cl.concepts = comp)) ∧
    (∀ s, mapAllConcepts m = .ok s → s.concept_clusters = findConceptClusters m.graph) := by
  refine ⟨?_, ?_, ?_⟩
  · intro h
    unfold findConceptClusters
    rw [if_pos h]
  · intro h5
    have hunf : findConceptClusters m.graph
        = (sortBy (fun x y => decide (y.size ≤ x.size))
            (((components m.graph).filter fun c => 3 ≤ c.length).map
              (clusterOf m.graph))).take 10 := by
      unfold findConceptClusters
      rw [if_neg (Nat.not_lt.2 h5)]
    have hcompfacts : ∀ comp ∈ (components m.graph).filter (fun c => 3 ≤ c.length),
        (∀ v ∈ comp, v ∈ nodeNames m.graph) ∧ comp ≠ [] ∧
        comp ∈ components m.graph ∧ 3 ≤ comp.length := by
      intro comp hcomp
      have h1 := List.mem_of_mem_filter hcomp
      have h2 : 3 ≤ comp.length := by
        have := List.of_mem_filter hcomp
        simpa using this
      obtain ⟨v, hv, hcr⟩ := components_sub m.graph comp h1
      subst hcr
      exact ⟨reachList_subset_nodes hv hwf.2.2,
        List.ne_nil_of_mem (mem_reachList_self _ v), h1, h2⟩
    have htot : ∀ x y : ClusterInfo,
        (decide (y.size ≤ x.size)) = true ∨ (decide (x.size ≤ y.size)) = true := by
      intro x y
      rcases Nat.le_total y.size x.size with h | h
      · exact Or.inl (decide_eq_true h)
      · exact Or.inr (decide_eq_true h)
    have htrans : ∀ x y z : ClusterInfo, decide (y.size ≤ x.size) = true →
        decide (z.size ≤ y.size) = true → decide (z.size ≤ x.size) = true := by
      intro x y z h1 h2
      exact decide_eq_true (le_trans (of_decide_eq_true h2) (of_decide_eq_true h1))
    refine ⟨?_, ?_, ?_, ?_, ?_⟩
    · intro cl hcl
      rw [hunf] at hcl
      have h1 : cl ∈ sortBy (fun x y => decide (y.size ≤ x.size))
          (((components m.graph).filter fun c => 3 ≤ c.length).map
            (clusterOf m.graph)) :=
        List.Sublist.mem hcl (List.take_sublist _ _)
      have h2 : cl ∈ ((components m.graph).filter fun c => 3 ≤ c.length).map
          (clusterOf m.graph) :=
        (sortBy_perm _ _).mem_iff.1 h1
      obtain ⟨comp, hcomp, rfl⟩ := List.mem_map.1 h2
      obtain ⟨hsub, hne, hmemc, hlen3⟩ := hcompfacts comp hcomp
      obtain ⟨hsize, hconcepts, hcentral, hmax, hdens⟩ := clusterOf_spec hsub hne
      refine ⟨by rw [hconcepts]; exact hmemc,
        by rw [hsize]; exact hlen3,
        by rw [hsize, hconcepts],
        by rw [hconcepts]; exact hcentral,
        ?_, by rw [hconcepts]; exact hdens⟩
      rw [hconcepts]
      exact hmax
    · rw [hunf, List.length_take]
      exact min_le_left _ _
    · rw [hunf]
      have hp := sortBy_pairwise htot htrans
        (((components m.graph).filter fun c => 3 ≤ c.length).map (clusterOf m.graph))
      have hp2 := List.Pairwise.sublist (List.take_sublist 10 _) hp
      rw [List.pairwise_map]
      exact hp2.imp fun h => of_decide_eq_true h
    · rintro ⟨comp, hcomp, hlen3⟩ hnil
      rw [hunf] at hnil
      have hmemf : comp ∈ (components m.graph).filter fun c => 3 ≤ c.length :=
        List.mem_filter.2 ⟨hcomp, decide_eq_true hlen3⟩
      have hmemsort : clusterOf m.graph comp ∈ sortBy
          (fun x y => decide (y.size ≤ x.size))
          (((components m.graph).filter fun c => 3 ≤ c.length).map
            (clusterOf m.graph)) :=
        (sortBy_perm _ _).mem_iff.2 (List.mem_map_of_mem _ hmemf)
      obtain ⟨x, rest, hxr⟩ :=
        List.exists_cons_of_ne_nil (List.ne_nil_of_mem hmemsort)
      rw [hxr] at hnil
      simp at hnil
    · intro hcount comp hcomp hlen3
      have hmemf : comp ∈ (components m.graph).filter fun c => 3 ≤ c.length :=
        List.mem_filter.2 ⟨hcomp, decide_eq_true hlen3⟩
      have hlenf : ((components m.graph).filter fun c => 3 ≤ c.length).length ≤ 10 := by
        rw [← List.countP_eq_length_filter]
        exact hcount
      have hlen2 : (sortBy (fun x y => decide (y.size ≤ x.size))
          (((components m.graph).filter fun c => 3 ≤ c.length).map
            (clusterOf m.graph))).length ≤ 10 := by
        rw [(sortBy_perm _ _).length_eq, List.length_map]
        exact hlenf
      rw [hunf, List.take_of_length_le hlen2]
      exact ⟨clusterOf m.graph comp,
        (sortBy_perm _ _).mem_iff.2 (List.mem_map_of_mem _ hmemf), rfl⟩
  · intro s hs
    simp only [mapAllConcepts] at hs
    cases hav : averageClustering m.graph with
    | error e =>
      rw [hav] at hs
      exact Except.noConfusion hs
    | ok avgc =>
      rw [hav] at hs
      simp only [Except.ok.injEq] at hs
      subst hs
      rfl

/-- C4 (counterexample): one triangle episode gives a three-node connected
component, yet `map_all_concepts` returns no clusters, because
`_find_concept_clusters` bails out on graphs with fewer than five nodes. -/
theorem cluster_query_empty_below_five_nodes :
    isOkSummary (mapAllConcepts mTri) = true ∧
    clustersOf (mapAllConcepts mTri) = [] ∧
    (components mTri.graph).map List.length = [3] := by decide

theorem concept_clusters_characterized_witness :
    (wellFormed (ConceptMapper.init epsClu).graph ∧
      5 ≤ (ConceptMapper.init epsClu).graph.nodes.length ∧
      (∃ comp ∈ components (ConceptMapper.init epsClu).graph, 3 ≤ comp.length)) ∧
    findConceptClusters (ConceptMapper.init epsClu).graph ≠ [] :=
  ⟨⟨by unfold wellFormed edgeClosed; exact ⟨by decide, by decide, by decide⟩,
      by decide, by decide⟩,
    ((concept_clusters_characterized (ConceptMapper.init epsClu)
        (by unfold wellFormed edgeClosed; exact ⟨by decide, by decide, by decide⟩)).2.1
      (by decide)).2.2.2.1 (by decide)⟩

/-! ## C8: shortest-path machinery -/

theorem findFrom_some {p : Nat → Bool} :
    ∀ (fuel k d : Nat), findFrom p k fuel = some d →
      p d = true ∧ k ≤ d ∧ ∀ m, k ≤ m → m < d → p m = false := by
  intro fuel
  induction fuel with
  | zero => intro k d h; cases h
  | succ fuel ih =>
    intro k d h
    unfold findFrom at h
    by_cases hk : p k = true
    · rw [if_pos hk] at h
      cases h
      exact ⟨hk, le_refl _, fun m h1 h2 => absurd h1 (Nat.not_le.2 h2)⟩
    · rw [if_neg hk] at h
      obtain ⟨h1, h2, h3⟩ := ih (k + 1) d h
      refine ⟨h1, le_trans (Nat.le_succ k) h2, fun m hm1 hm2 => ?_⟩
      rcases Nat.lt_or_ge m (k + 1) with hlt | hge
      · have hmk : m = k := Nat.le_antisymm (Nat.lt_succ_iff.1 hlt) hm1
        rw [hmk]
        cases hpk : p k
        · rfl
        · exact absurd hpk hk
      · exact h3 m hge hm2

theorem findFrom_isSome {p : Nat → Bool} :
    ∀ (fuel k : Nat), (∃ m, k ≤ m ∧ m < k + fuel ∧ p m = true) →
      (findFrom p k fuel).isSome = true := by
  intro fuel
  induction fuel with
  | zero =>
    rintro k ⟨m, h1, h2, -⟩
    omega
  | succ fuel ih =>
    rintro k ⟨m, h1, h2, h3⟩
    unfold findFrom
    by_cases hk : p k = true
    · rw [if_pos hk]
      rfl
    · rw [if_neg hk]
      apply ih
      refine ⟨m, ?_, by omega, h3⟩
      rcases Nat.eq_or_lt_of_le h1 with rfl | hlt
      · exact absurd h3 hk
      · exact hlt

theorem neighbors_hasEdge {g : Graph} {v w : String}
    (h : w ∈ neighbors g v) : hasEdge g v w = true := by
  unfold neighbors at h
  obtain ⟨e, he, hnf⟩ := List.mem_filterMap.1 h
  unfold hasEdge
  apply List.any_eq_true.2
  refine ⟨e, he, ?_⟩
  by_cases hq : e.1 = v
  · rw [if_pos hq] at hnf
    cases hnf
    simp [sameEdge, hq]
  · rw [if_neg hq] at hnf
    by_cases hq2 : e.2.1 = v
    · rw [if_pos hq2] at hnf
      cases hnf
      simp [sameEdge, hq2]
    · rw [if_neg hq2] at hnf
      cases hnf

theorem ball_step {g : Graph} {s v w : String} {n : Nat}
    (hv : v ∈ ball g s n) (hw : w ∈ neighbors g v) : w ∈ ball g s (n + 1) := by
  simp only [ball]
  exact List.mem_append_right _ (List.mem_flatMap.2 ⟨v, hv, hw⟩)

theorem walk_mem_ball {g : Graph} {s t : String} :
    ∀ (p : List String) (v : String) (n : Nat), isWalk g (v :: p) →
      v ∈ ball g s n → (v :: p).getLast? = some t → t ∈ ball g s (n + p.length) := by
  intro p
  induction p with
  | nil =>
    intro v n _ hv hlast
    simp only [List.getLast?_singleton, Option.some.injEq] at hlast
    subst hlast
    simpa using hv
  | cons w p' ih =>
    intro v n hwalk hv hlast
    have hedge : hasEdge g v w = true := (List.chain'_cons'.1 hwalk).1 w rfl
    have hwalk' : isWalk g (w :: p') := (List.chain'_cons'.1 hwalk).2
    have hw : w ∈ ball g s (n + 1) :=
      ball_step hv (mem_neighbors_of_hasEdge hedge)
    rw [List.getLast?_cons_cons] at hlast
    have := ih w (n + 1) hwalk' hw hlast
    have harith : n + 1 + p'.length = n + (w :: p').length := by
      simp [List.length_cons]
      omega
    rwa [harith] at this

theorem walkFrom_ball {g : Graph} {s t : String} {p : List String}
    (h : walkFrom g s t p) : t ∈ ball g s (p.length - 1) := by
  obtain ⟨hwalk, hhead, hlast⟩ := h
  cases p with
  | nil => cases hhead
  | cons v rest =>
    simp only [List.head?_cons, Option.some.injEq] at hhead
    subst hhead
    have := walk_mem_ball rest v 0 hwalk (ball_zero_mem g v 0) hlast
    simpa using this

theorem walk_subset_nodes {g : Graph} (hec : edgeClosed g) :
    ∀ (p : List String) (v : String), isWalk g (v :: p) → v ∈ nodeNames g →
      ∀ x ∈ v :: p, x ∈ nodeNames g := by
  intro p
  induction p with
  | nil =>
    intro v _ hv x hx
    simp only [List.mem_singleton] at hx
    rw [hx]
    exact hv
  | cons w p' ih =>
    intro v hwalk hv x hx
    have hedge : hasEdge g v w = true := (List.chain'_cons'.1 hwalk).1 w rfl
    have hw : w ∈ nodeNames g := (hasEdge_endpoints hedge hec).2
    rcases List.mem_cons.1 hx with rfl | hx
    · exact hv
    · exact ih w (List.chain'_cons'.1 hwalk).2 hw x hx

theorem dropUntil_head {x : String} :
    ∀ {l : List String}, x ∈ l → (dropUntil x l).head? = some x := by
  intro l
  induction l with
  | nil => intro h; cases h
  | cons y ys ih =>
    intro hmem
    by_cases hy : y = x
    · simp [dropUntil, hy]
    · have hxys : x ∈ ys := by
        rcases List.mem_cons.1 hmem with h | h
        · exact absurd h.symm hy
        · exact h
      simp only [dropUntil, if_neg hy]
      exact ih hxys

theorem dropUntil_sublist (x : String) : ∀ l : List String, List.Sublist (dropUntil x l) l := by
  intro l
  induction l with
  | nil => exact List.Sublist.refl _
  | cons y ys ih =>
    by_cases hy : y = x
    · simp only [dropUntil, if_pos hy]
      exact List.Sublist.refl _
    · simp only [dropUntil, if_neg hy]
      exact ih.cons y

theorem dropUntil_getLast {x : String} :
    ∀ {l : List String}, x ∈ l → (dropUntil x l).getLast? = l.getLast? := by
  intro l
  induction l with
  | nil => intro h; cases h
  | cons y ys ih =>
    intro hmem
    by_cases hy : y = x
    · simp only [dropUntil, if_pos hy]
    · have hxys : x ∈ ys := by
        rcases List.mem_cons.1 hmem with h | h
        · exact absurd h.symm hy
        · exact h
      obtain ⟨z, zs, hz⟩ := List.exists_cons_of_ne_nil (List.ne_nil_of_mem hxys)
      simp only [dropUntil, if_neg hy]
      rw [ih hxys, hz, List.getLast?_cons_cons]

theorem dropUntil_chain {R : String → String → Prop} (x : String) :
    ∀ l : List String, List.Chain' R l → List.Chain' R (dropUntil x l) := by
  intro l
  induction l with
  | nil => intro h; exact h
  | cons y ys ih =>
    intro h
    by_cases hy : y = x
    · simp only [dropUntil, if_pos hy]
      exact h
    · simp only [dropUntil, if_neg hy]
      exact ih (List.chain'_cons'.1 h).2

theorem bypass_subset : ∀ (p : List String), ∀ x ∈ bypass p, x ∈ p := by
  intro p
  induction p with
  | nil => intro x hx; cases hx
  | cons y ys ih =>
    intro x hx
    simp only [bypass] at hx
    by_cases hc : (bypass ys).contains y
    · rw [if_pos hc] at hx
      exact List.mem_cons_of_mem _
        (ih x (List.Sublist.mem hx (dropUntil_sublist y (bypass ys))))
    · rw [if_neg hc] at hx
      rcases List.mem_cons.1 hx with rfl | hx
      · exact List.mem_cons_self _ _
      · exact List.mem_cons_of_mem _ (ih x hx)

theorem bypass_head : ∀ p : List String, (bypass p).head? = p.head? := by
  intro p
  induction p with
  | nil => rfl
  | cons y ys _ =>
    simp only [bypass]
    by_cases hc : (bypass ys).contains y
    · rw [if_pos hc]
      rw [dropUntil_head ((contains_iff_mem_str _ _).1 hc)]
      rfl
    · rw [if_neg hc]
      rfl

theorem bypass_getLast : ∀ p : List String, (bypass p).getLast? = p.getLast? := by
  intro p
  induction p with
  | nil => rfl
  | cons y ys ih =>
    cases ys with
    | nil => rfl
    | cons z zs =>
      have hbne : bypass (z :: zs) ≠ [] := by
        intro hb
        have hh := bypass_head (z :: zs)
        rw [hb] at hh
        cases hh
      have hunf : bypass (y :: z :: zs)
          = if (bypass (z :: zs)).contains y then dropUntil y (bypass (z :: zs))
            else y :: bypass (z :: zs) := rfl
      rw [hunf]
      by_cases hc : (bypass (z :: zs)).contains y
      · rw [if_pos hc]
        rw [dropUntil_getLast ((contains_iff_mem_str _ _).1 hc), ih,
          List.getLast?_cons_cons]
      · rw [if_neg hc]
        obtain ⟨w, ws, hw⟩ := List.exists_cons_of_ne_nil hbne
        rw [hw, List.getLast?_cons_cons, ← hw, ih, List.getLast?_cons_cons]

theorem bypass_chain {R : String → String → Prop} :
    ∀ p : List String, List.Chain' R p → List.Chain' R (bypass p) := by
  intro p
  induction p with
  | nil => intro h; exact h
  | cons y ys ih =>
    intro h
    obtain ⟨hhead, htail⟩ := List.chain'_cons'.1 h
    simp only [bypass]
    by_cases hc : (bypass ys).contains y
    · rw [if_pos hc]
      exact dropUntil_chain y _ (ih htail)
    · rw [if_neg hc]
      refine List.chain'_cons'.2 ⟨?_, ih htail⟩
      intro z hz
      rw [bypass_head ys] at hz
      exact hhead z hz

theorem bypass_nodup : ∀ p : List String, (bypass p).Nodup := by
  intro p
  induction p with
  | nil => exact List.nodup_nil
  | cons y ys ih =>
    simp only [bypass]
    by_cases hc : (bypass ys).contains y
    · rw [if_pos hc]
      exact (dropUntil_sublist y (bypass ys)).nodup ih
    · rw [if_neg hc]
      refine List.nodup_cons.2 ⟨?_, ih⟩
      intro hmem
      exact hc ((contains_iff_mem_str _ _).2 hmem)

theorem bypass_walkFrom {g : Graph} {s t : String} {p : List String}
    (h : walkFrom g s t p) : walkFrom g s t (bypass p) := by
  obtain ⟨h1, h2, h3⟩ := h
  refine ⟨bypass_chain p h1, ?_, ?_⟩
  · rw [bypass_head]; exact h2
  · rw [bypass_getLast]; exact h3

theorem resolveLast_mem {g : Graph} {a s : String}
    (h : resolveLast g a = some s) : s ∈ nodeNames g := by
  rw [resolveLast_eq_getLast_filter] at h
  exact List.mem_of_mem_filter (List.mem_of_mem_getLast? h)

theorem dist_sound {g : Graph} {s t : String} {d : Nat}
    (h : dist g s t = some d) : t ∈ ball g s d := by
  obtain ⟨h1, -, -⟩ := findFrom_some _ _ _ h
  exact (contains_iff_mem_str _ _).1 h1

theorem dist_minimal {g : Graph} {s t : String} {d : Nat}
    (h : dist g s t = some d) {q : List String} (hq : walkFrom g s t q) :
    d ≤ q.length - 1 := by
  obtain ⟨-, -, h3⟩ := findFrom_some _ _ _ h
  by_contra hlt
  push_neg at hlt
  have hmem := walkFrom_ball hq
  have hfalse := h3 (q.length - 1) (Nat.zero_le _) hlt
  have hc : (ball g s (q.length - 1)).contains t = true :=
    (contains_iff_mem_str _ _).2 hmem
  rw [hc] at hfalse
  cases hfalse

theorem dist_isSome_of_walk {g : Graph} {s t : String} (hec : edgeClosed g)
    (hs : s ∈ nodeNames g) {q : List String} (hq : walkFrom g s t q) :
    (dist g s t).isSome = true := by
  have hq2 : walkFrom g s t (bypass q) := bypass_walkFrom hq
  have hnd : (bypass q).Nodup := bypass_nodup q
  have hqne : q ≠ [] := by
    intro hnil
    rw [hnil] at hq
    cases hq.2.1
  obtain ⟨v, rest, hv⟩ := List.exists_cons_of_ne_nil hqne
  have hvs : v = s := by
    have := hq.2.1
    rw [hv] at this
    simpa using this
  have hsub : ∀ x ∈ bypass q, x ∈ nodeNames g := by
    intro x hx
    have hxq : x ∈ q := bypass_subset q x hx
    rw [hv] at hxq
    exact walk_subset_nodes hec rest v (by rw [← hv]; exact hq.1) (hvs ▸ hs) x hxq
  have hlen : (bypass q).length ≤ g.nodes.length := by
    have hle := (List.Nodup.subperm hnd hsub).length_le
    simpa [nodeNames] using hle
  have hbne : bypass q ≠ [] := by
    intro hnil
    rw [hnil] at hq2
    cases hq2.2.1
  have hball : t ∈ ball g s ((bypass q).length - 1) := walkFrom_ball hq2
  unfold dist
  apply findFrom_isSome
  refine ⟨(bypass q).length - 1, Nat.zero_le _, ?_, (contains_iff_mem_str _ _).2 hball⟩
  have hpos : 1 ≤ (bypass q).length := List.length_pos.2 hbne
  omega

theorem pathTo_spec {g : Graph} {s : String} :
    ∀ (n : Nat) (t : String), t ∈ ball g s n →
      walkFrom g s t (pathTo g s n t) ∧ (pathTo g s n t).length ≤ n + 1 := by
  intro n
  induction n with
  | zero =>
    intro t ht
    simp only [ball, List.mem_singleton] at ht
    subst ht
    exact ⟨⟨List.chain'_singleton _, rfl, rfl⟩, by simp [pathTo]⟩
  | succ n ih =>
    intro t ht
    by_cases hmem : (ball g s n).contains t = true
    · have hunf : pathTo g s (n + 1) t = pathTo g s n t := by
        simp only [pathTo, if_pos hmem]
      obtain ⟨hw, hl⟩ := ih t ((contains_iff_mem_str _ _).1 hmem)
      rw [hunf]
      exact ⟨hw, le_trans hl (by omega)⟩
    · have htf : t ∈ (ball g s n).flatMap fun v => neighbors g v := by
        simp only [ball, List.mem_append] at ht
        rcases ht with h | h
        · exact absurd ((contains_iff_mem_str _ _).2 h) hmem
        · exact h
      obtain ⟨v, hv, hvt⟩ := List.mem_flatMap.1 htf
      have hfind : ((ball g s n).find? fun w => (neighbors g w).contains t).isSome
          = true :=
        List.find?_isSome.2 ⟨v, hv, (contains_iff_mem_str _ _).2 hvt⟩
      obtain ⟨w, hw⟩ := Option.isSome_iff_exists.1 hfind
      have hwball : w ∈ ball g s n := List.mem_of_find?_eq_some hw
      have hwp : (neighbors g w).contains t = true := by
        simpa using List.find?_some hw
      have hwnb : t ∈ neighbors g w := (contains_iff_mem_str _ _).1 hwp
      have hunf : pathTo g s (n + 1) t = pathTo g s n w ++ [t] := by
        simp only [pathTo, if_neg hmem]
        rw [hw]
      obtain ⟨⟨hchain, hhead, hlast⟩, hl⟩ := ih w hwball
      rw [hunf]
      refine ⟨⟨?_, ?_, List.getLast?_concat _⟩, ?_⟩
      · refine List.chain'_append.2 ⟨hchain, List.chain'_singleton _, ?_⟩
        intro x hx y hy
        rw [hlast] at hx
        simp only [Option.mem_def, Option.some.injEq] at hx
        simp only [List.head?_cons, Option.mem_def, Option.some.injEq] at hy
        subst hx
        subst hy
        exact neighbors_hasEdge hwnb
      · obtain ⟨hd, rest, hrest⟩ := List.exists_cons_of_ne_nil
          (show pathTo g s n w ≠ [] by
            intro hnil
            rw [hnil] at hhead
            cases hhead)
        rw [hrest]
        rw [hrest] at hhead
        simpa using hhead
      · simp only [List.length_append, List.length_singleton]
        omega

/-- C8: for a built graph and two resolved names, `find_concept_path`
either returns a walk whose reported `path_length` is its edge count,
equals the BFS distance (no connecting walk is shorter), together with the
per-step edge weights and shared episodes; or, when the endpoints are in
different components, the distinct no-path error carrying both canonical
node names. -/
theorem findConceptPath_eq_of_resolved {m : ConceptMapper} {a b s t : String}
    (hs : resolveLast m.graph a = some s) (ht : resolveLast m.graph b = some t)
    (hcond : ¬(s = "" ∨ t = "")) :
    findConceptPath m a b
      = match dist m.graph s t with
        | some d =>
          PathResult.found s t (pathTo m.graph s d t)
            ((pathTo m.graph s d t).length - 1)
            (pathDetails m.graph (pathTo m.graph s d t))
        | none => PathResult.noPath s t := by
  unfold findConceptPath
  rw [hs, ht]
  show (if s = "" ∨ t = "" then PathResult.notFound else _) = _
  rw [if_neg hcond]

theorem shortest_path_optimal (eps : List Episode) (a b s t : String)
    (hs : resolveLast (ConceptMapper.init eps).graph a = some s)
    (ht : resolveLast (ConceptMapper.init eps).graph b = some t) :
    PathSpec (ConceptMapper.init eps) a b s t := by
  have hwf : wellFormed (ConceptMapper.init eps).graph := built_wellFormed eps
  have hsmem : s ∈ nodeNames (ConceptMapper.init eps).graph := resolveLast_mem hs
  have htmem : t ∈ nodeNames (ConceptMapper.init eps).graph := resolveLast_mem ht
  have hcond : ¬(s = "" ∨ t = "") := by
    rintro (h | h)
    · exact hwf.2.1 s hsmem h
    · exact hwf.2.1 t htmem h
  unfold PathSpec
  rw [findConceptPath_eq_of_resolved hs ht hcond]
  cases hd : dist (ConceptMapper.init eps).graph s t with
  | some d =>
    left
    have htball := dist_sound hd
    obtain ⟨hwalk, hlen⟩ := pathTo_spec d t htball
    have hpos : 1 ≤ (pathTo (ConceptMapper.init eps).graph s d t).length := by
      apply List.length_pos.2
      intro hnil
      have := hwalk.2.1
      rw [hnil] at this
      cases this
    have hexact : (pathTo (ConceptMapper.init eps).graph s d t).length - 1 = d := by
      have hmin : d ≤ (pathTo (ConceptMapper.init eps).graph s d t).length - 1 :=
        dist_minimal hd hwalk
      omega
    refine ⟨_, _, rfl, hwalk, ?_, rfl, ?_⟩
    · rw [hexact]
    · intro q hq
      rw [hexact]
      exact dist_minimal hd hq
  | none =>
    right
    refine ⟨rfl, ?_⟩
    rintro ⟨q, hq⟩
    have hsome := dist_isSome_of_walk hwf.2.2 hsmem hq
    rw [hd] at hsome
    cases hsome

theorem shortest_path_optimal_witness :
    resolveLast (ConceptMapper.init epsPath).graph "A" = some "A" ∧
    resolveLast (ConceptMapper.init epsPath).graph "C" = some "C" ∧
    PathSpec (ConceptMapper.init epsPath) "A" "C" "A" "C" :=
  ⟨by decide, by decide,
    shortest_path_optimal epsPath "A" "C" "A" "C" (by decide) (by decide)⟩

end Simone
